import Mathlib

/-!
# VectorFlow pose-transition engine — verification development

Shallow embedding of the VectorFlow engine (`src/engine.js`, `src/player.js`,
`src/index.js`, `src/utils.js`) and proofs about its route resolution,
duration precedence, step expansion, playback state machine and transform
round-trip.

JavaScript numbers that flow through the duration-precedence chain are
modelled by `JVal`: `undefined`, a non-number value, `NaN`, the two
infinities, and finite numbers as rationals.  Route tables are total
functions from route keys to optional route blocks, mirroring the
normalized configuration produced by `parseAndValidateJSON`.  Fallible
expansion returns `Except`, mirroring the thrown `Error`s.
-/

namespace VectorFlow

/-- Model of a JavaScript value sitting in a duration slot: `undefined`,
some defined non-number value, `NaN`, `Infinity`, `-Infinity`, or a finite
number (as a rational). -/
inductive JVal
  | undef
  | nonnum
  | nan
  | inf
  | ninf
  | fin (q : ℚ)
deriving DecidableEq, Repr

/-- Models the JavaScript test `typeof x === 'number' && x > 0`.  `NaN`
compares false against `0`; `Infinity` compares true; `undefined` and
non-numbers fail the `typeof` guard. -/
def JVal.isNumGtZero : JVal → Bool
  | .fin q => decide (0 < q)
  | .inf => true
  | _ => false

/-- Models the JavaScript nullish-coalescing `a ?? b` for values that are
either `undefined` or numbers (the normalizer never stores `null`). -/
def JVal.orUndef : JVal → JVal → JVal
  | .undef, b => b
  | a, _ => a

/-- Duration precedence chain, from `resolveMs` in `src/engine.js`:
`action.ms > routes[target].ms > json.ms > 120`, where a candidate counts
only if it is a number strictly greater than zero. -/
def resolveMs (actionMs routeMs jsonMs : JVal) : JVal :=
  if actionMs.isNumGtZero then actionMs
  else if routeMs.isNumGtZero then routeMs
  else if jsonMs.isNumGtZero then jsonMs
  else .fin 120

/-- Spec-side description used for the amended C4 claim: the first
candidate in the list that is a number strictly greater than zero under
JavaScript comparison, with fallback `120`. -/
def firstNumGtZero : List JVal → JVal
  | [] => .fin 120
  | c :: rest => if c.isNumGtZero then c else firstNumGtZero rest

/-- A normalized route block (`routes[key]` after `parseAndValidateJSON`):
an optional duration override in the `ms` slot (kept as a `JVal`, `undef`
when absent) and a mapping from source-state keys (or `"*"`) to declared
waypoint paths. -/
structure RouteBlock where
  ms : JVal
  paths : String → Option (List String)

/-- A normalized route table: route key to optional route block. -/
def RouteTable := String → Option RouteBlock

/-- Models the JavaScript optional chain `routes[k]?.ms`. -/
def msOf (routes : RouteTable) (k : String) : JVal :=
  match routes k with
  | none => .undef
  | some b => b.ms

/-- Route lookup from `resolvePath` in `src/engine.js`: absent block gives
the direct fallback `[target]`; then the source-specific path; then the
wildcard `"*"` path; then the direct fallback again. -/
def resolvePath (targetState currentState : String) (routes : RouteTable) : List String :=
  match routes targetState with
  | none => [targetState]
  | some block =>
    match block.paths currentState with
    | some p => p
    | none =>
      match block.paths "*" with
      | some p => p
      | none => [targetState]

/-- Drop a leading path element equal to the current state, from
`normalizePath` in `src/engine.js`. -/
def normalizePath (path : List String) (currentState : String) : List String :=
  match path with
  | [] => []
  | x :: rest => if x = currentState then rest else x :: rest

/-- An atomic expanded step: destination state plus resolved duration. -/
structure Step where
  state : String
  ms : JVal
deriving DecidableEq, Repr

/-- Errors thrown by the step expanders.  `unknownState k (some s)` models
the thrown `Error` naming route key `k` and offending state `s`;
`unknownState k none` models the empty-path case of direct expansion where
the offending "state" is JavaScript `undefined`. -/
inductive VfErr
  | unknownState (routeKey : String) (st : Option String)
deriving DecidableEq, Repr

/-- Duration of the step to `visited`, emitted while processing the
instruction entry `routeKey`: `resolveMs(actionMs,
routes[routeKey]?.ms ?? routes[visited]?.ms, jsonMs)`, from line 93/94 of
`src/engine.js`. -/
def entryMs (routes : RouteTable) (actionMs jsonMs : JVal) (routeKey visited : String) : JVal :=
  resolveMs actionMs ((msOf routes routeKey).orUndef (msOf routes visited)) jsonMs

/-- Inner loop of `expandSequence`: walk the normalized path of one
instruction entry, validating each visited state, emitting one step per
visited state and advancing the current pointer. -/
def seqPath (routes : RouteTable) (actionMs jsonMs : JVal) (valid : String → Bool)
    (routeKey : String) : List String → String → Except VfErr (List Step × String)
  | [], current => .ok ([], current)
  | next :: rest, _current =>
    if valid next then
      match seqPath routes actionMs jsonMs valid routeKey rest next with
      | .ok (steps, final) =>
        .ok (⟨next, entryMs routes actionMs jsonMs routeKey next⟩ :: steps, final)
      | .error e => .error e
    else .error (.unknownState routeKey (some next))

/-- Sequence expansion from `src/engine.js`: for each instruction entry,
resolve its path against the running current pointer, normalize away a
leading no-op, then walk the path with `seqPath`.  Throws (returns
`.error`) on the first unknown state.  The source guards its validation
with `validStates &&` for an absent set; `index.js` always passes the
discovered set, so the model takes `valid` total. -/
def expandSequence (order : List String) (currentState : String) (routes : RouteTable)
    (actionMs jsonMs : JVal) (valid : String → Bool) : Except VfErr (List Step × String) :=
  match order with
  | [] => .ok ([], currentState)
  | routeKey :: restOrder =>
    let path := normalizePath (resolvePath routeKey currentState routes) currentState
    match seqPath routes actionMs jsonMs valid routeKey path currentState with
    | .error e => .error e
    | .ok (steps, current2) =>
      match expandSequence restOrder current2 routes actionMs jsonMs valid with
      | .error e => .error e
      | .ok (more, final) => .ok (steps ++ more, final)

/-- Direct expansion from `src/engine.js`: resolve each entry's path
against the current pointer, keep only the last element as destination
(`path[path.length - 1]`; `none` models the `undefined` read from an empty
path), validate it, skip when it equals the current pointer, otherwise
emit a single step. -/
def expandDirect (order : List String) (currentState : String) (routes : RouteTable)
    (actionMs jsonMs : JVal) (valid : String → Bool) : Except VfErr (List Step × String) :=
  match order with
  | [] => .ok ([], currentState)
  | routeKey :: restOrder =>
    let path := resolvePath routeKey currentState routes
    match path.getLast? with
    | none => .error (.unknownState routeKey none)
    | some targetState =>
      if valid targetState then
        if targetState = currentState then
          expandDirect restOrder currentState routes actionMs jsonMs valid
        else
          match expandDirect restOrder targetState routes actionMs jsonMs valid with
          | .error e => .error e
          | .ok (more, final) =>
            .ok (⟨targetState, entryMs routes actionMs jsonMs routeKey targetState⟩ :: more, final)
      else .error (.unknownState routeKey (some targetState))

/-- Spec-side processing of one sequence entry, used for the amended C1
claim: every visited state of the already-normalized path becomes one
step whose duration is `entryMs` (route-key override first, then the
visited state's own override), the whole entry fails on the first
invalid visited state, and the pointer advances to the path's last
element. -/
def specEntry (routes : RouteTable) (actionMs jsonMs : JVal) (valid : String → Bool)
    (routeKey : String) (path : List String) (current : String) :
    Except VfErr (List Step × String) :=
  match path.find? (fun st => !valid st) with
  | some bad => .error (.unknownState routeKey (some bad))
  | none =>
    .ok (path.map (fun st => ⟨st, entryMs routes actionMs jsonMs routeKey st⟩),
         path.getLastD current)

/-- Spec-side sequence expansion for the amended C1 claim, phrased as a
per-entry map instead of the source's accumulator loop. -/
def expandSequenceSpec (order : List String) (currentState : String) (routes : RouteTable)
    (actionMs jsonMs : JVal) (valid : String → Bool) : Except VfErr (List Step × String) :=
  match order with
  | [] => .ok ([], currentState)
  | routeKey :: restOrder =>
    let path := normalizePath (resolvePath routeKey currentState routes) currentState
    match specEntry routes actionMs jsonMs valid routeKey path currentState with
    | .error e => .error e
    | .ok (steps, current2) =>
      match expandSequenceSpec restOrder current2 routes actionMs jsonMs valid with
      | .error e => .error e
      | .ok (more, final) => .ok (steps ++ more, final)

/-- Models the JavaScript truthiness pattern `a || b` on strings: the
empty string is falsy. -/
def jsOrString (a b : String) : String :=
  if a = "" then b else a

/-- Landing state of one completed `playSteps` run (`src/player.js`):
`lastState` is the state of the last step, and the caller keeps the old
current state when it is null/falsy (`finalState || current`). -/
def playStepsLand (steps : List Step) (current : String) : String :=
  match (steps.map Step.state).getLast? with
  | none => current
  | some l => jsOrString l current

/-- Loop branch of `runAction` (`src/player.js`), with no interleaved
cancellation: each of the `count` iterations re-expands from the running
current pointer; when the iteration produced steps, `playSteps` runs
them — emitting their notifications and moving the pointer — before the
next iteration expands.  On success, the per-iteration step lists and
the final pointer; when an iteration's expansion throws, the error
together with the step lists of the iterations that had already fully
played before the throw. -/
def runLoop (expand : String → Except VfErr (List Step × String)) :
    Nat → String → Except (List (List Step) × VfErr) (List (List Step) × String)
  | 0, current => .ok ([], current)
  | n + 1, current =>
    match expand current with
    | .error e => .error ([], e)
    | .ok (steps, _final) =>
      let current2 := if steps.isEmpty then current else playStepsLand steps current
      match runLoop expand n current2 with
      | .error (done, e) => .error (steps :: done, e)
      | .ok (rest, final) => .ok (steps :: rest, final)

/-- Steps of an expansion result, empty on error (used to state the loop
claim; the error branch is unreachable along a successful run). -/
def okSteps (r : Except VfErr (List Step × String)) : List Step :=
  match r with
  | .ok (steps, _) => steps
  | .error _ => []

/-- Landing-state function of one loop iteration: the expansion's final
pointer, the seed itself on error (unreachable along a successful run). -/
def landState (expand : String → Except VfErr (List Step × String)) (s : String) : String :=
  match expand s with
  | .ok (_, final) => final
  | .error _ => s

/-- Action kind after normalization (`parseAndValidateJSON`):
`'loop'` or `'sequence'`. -/
inductive ActKind
  | seq
  | loop
deriving DecidableEq, Repr

/-- A normalized action: kind, instruction order, optional duration
override, optional iteration count (loops only, positive), optional
traversal mode. -/
structure ActionN where
  kind : ActKind
  order : List String
  ms : JVal
  count : Option Nat
  mode : Option String
deriving Repr

/-- Model of `runAction` (`src/player.js`) with no interleaved
cancellation: on success, the ordered `stateChange` emissions and the
final state it resolves with; on an expansion error, the error together
with the `stateChange` emissions that had already fired before the
throw — empty for the sequence branch, whose single expansion precedes
all playback, but possibly nonempty for a loop failing in a later
iteration.  The loop branch picks the expansion strategy from `mode` and
uses `action.count || 99999`; the sequence branch expands once and
returns `finalState || currentState` from `playSteps`. -/
def runActionNat (a : ActionN) (currentState : String) (routes : RouteTable)
    (jsonMs : JVal) (valid : String → Bool) :
    Except (List String × VfErr) (List String × String) :=
  match a.kind with
  | .loop =>
    let expand := fun s =>
      if a.mode = some "direct" then expandDirect a.order s routes a.ms jsonMs valid
      else expandSequence a.order s routes a.ms jsonMs valid
    match runLoop expand (a.count.getD 99999) currentState with
    | .error (done, e) => .error ((done.flatten).map Step.state, e)
    | .ok (iters, final) => .ok ((iters.flatten).map Step.state, final)
  | .seq =>
    match expandSequence a.order currentState routes a.ms jsonMs valid with
    | .error e => .error ([], e)
    | .ok (steps, _) =>
      if steps.isEmpty then .ok ([], currentState)
      else .ok (steps.map Step.state, playStepsLand steps currentState)

/-- The mutable engine-instance state of `src/index.js`: the recorded
current state, `_abortController` (as `some aborted` when present) and
`_currentActionName`. -/
structure EngineSt where
  currentState : String
  ctrl : Option Bool
  currentActionName : Option String
deriving DecidableEq, Repr

/-- The `isPlaying` getter: `_abortController !== null &&
!_abortController.signal.aborted`. -/
def isPlaying (e : EngineSt) : Bool :=
  match e.ctrl with
  | some ab => !ab
  | none => false

/-- Playback-time error conditions surfaced through the `error` event. -/
inductive PErr
  | unknownAction (a : String)
  | expandFail (e : VfErr)
deriving DecidableEq, Repr

/-- Lifecycle notifications emitted by the engine. -/
inductive Ev
  | stateChange (s : String)
  | actionStart (a : String)
  | actionEnd (a : String)
  | errorEv (p : PErr)
deriving DecidableEq, Repr

/-- The `stop()` method: when a controller exists, abort it, clear it,
and when the recorded action name is truthy — JavaScript treats the
empty string as falsy in `if (this._currentActionName)` — clear it and
emit one `actionEnd`; with no controller do nothing. -/
def stopFn (e : EngineSt) : EngineSt × List Ev :=
  match e.ctrl with
  | none => (e, [])
  | some _ =>
    match e.currentActionName with
    | none => ({ e with ctrl := none }, [])
    | some name =>
      if name = "" then ({ e with ctrl := none }, [])
      else ({ e with ctrl := none, currentActionName := none }, [Ev.actionEnd name])

/-- The normalized engine configuration consumed by `play`. -/
structure Config where
  routes : RouteTable
  ms : JVal
  actions : String → Option ActionN
  valid : String → Bool

/-- How a `play` call returned: normal resolution, the empty-order
no-op, or a thrown error. -/
inductive PlayOut
  | retNormal
  | retEmptyOrder
  | threw (p : PErr)
deriving DecidableEq, Repr

/-- Whole-call model of `play(actionName)` (`src/index.js`) for runs with
no interleaved cancellation: unknown action emits `error` and throws
without touching state; empty order returns with only a console warning;
otherwise any previous session is stopped, a fresh non-aborted controller
and the action name are installed, `actionStart` is emitted, and the
action runs to completion or to an expansion error.  On natural
completion the action name is cleared and `actionEnd` emitted — the
controller is left in place, exactly as in the source.  On an expansion
error the name is cleared and `error` emitted once, while the recorded
current state stays wherever the `stateChange` callbacks of the steps
completed before the throw had moved it — the catch touches only the
action name. -/
def playNat (cfg : Config) (e : EngineSt) (actionName : String) :
    EngineSt × List Ev × PlayOut :=
  match cfg.actions actionName with
  | none => (e, [Ev.errorEv (.unknownAction actionName)], .threw (.unknownAction actionName))
  | some action =>
    if action.order.isEmpty then (e, [], .retEmptyOrder)
    else
      let s1 := stopFn e
      let e2 : EngineSt :=
        { s1.1 with ctrl := some false, currentActionName := some actionName }
      let evs2 := s1.2 ++ [Ev.actionStart actionName]
      match runActionNat action e2.currentState cfg.routes cfg.ms cfg.valid with
      | .ok (changes, finalState) =>
        ({ e2 with currentState := jsOrString finalState e2.currentState,
                   currentActionName := none },
         evs2 ++ changes.map Ev.stateChange ++ [Ev.actionEnd actionName], .retNormal)
      | .error (changes, err) =>
        ({ e2 with currentState := changes.getLastD e2.currentState,
                   currentActionName := none },
         evs2 ++ changes.map Ev.stateChange ++ [Ev.errorEv (.expandFail err)],
         .threw (.expandFail err))

/-- Interleaving model of a sequence-kind `play` that is interrupted by
`stop()` after `k` fully completed steps: the first `k` steps emit their
`stateChange` notifications and move the recorded current state, the
in-flight step's rejection reaches `play`'s catch as an `AbortError` and
is swallowed silently, while `stop()` itself clears the session and emits
its single `actionEnd`.  Returns the engine state and the full event
list of the episode. -/
def playInterrupted (cfg : Config) (e : EngineSt) (actionName : String) (k : Nat) :
    EngineSt × List Ev :=
  match cfg.actions actionName with
  | none => (e, [Ev.errorEv (.unknownAction actionName)])
  | some action =>
    if action.order.isEmpty then (e, [])
    else
      let s1 := stopFn e
      let e2 : EngineSt :=
        { s1.1 with ctrl := some false, currentActionName := some actionName }
      let evs2 := s1.2 ++ [Ev.actionStart actionName]
      match expandSequence action.order e2.currentState cfg.routes action.ms cfg.ms cfg.valid with
      | .ok (steps, _) =>
        let done := (steps.take k).map Step.state
        let e3 := { e2 with currentState := done.getLastD e2.currentState }
        let s4 := stopFn e3
        (s4.1, evs2 ++ done.map Ev.stateChange ++ s4.2)
      | .error err =>
        ({ e2 with currentActionName := none }, evs2 ++ [Ev.errorEv (.expandFail err)])

/-! ## Transform decomposition and recomposition (`src/utils.js`)

Transform strings are modelled as `List Char`.  Numbers written in plain
decimal form are modelled by `Dec` (sign, integer digits, fraction
digits); their float value is a rational.  `parseTransform` models the
three regular-expression matches of the source — including the
leftmost-match scan and the greedy `\s*[,\s]\s*` argument separator —
and `buildTransform` the canonical translate/rotate/scale
serialization. -/

/-- Digit character for a digit value. -/
def digitChar (n : Nat) : Char := Char.ofNat (48 + n)

/-- Decimal digit test, the `\d` class. -/
def isDigitChar (c : Char) : Bool := decide ('0' ≤ c) && decide (c ≤ '9')

/-- The regex character class `[-\d.]` used by all three capture groups. -/
def isNumChar (c : Char) : Bool := c = '-' || c = '.' || isDigitChar c

/-- Whitespace test for the `\s` class (the characters that can actually
occur here). -/
def isWSChar (c : Char) : Bool := c = ' ' || c = '\t' || c = '\n' || c = '\r'

/-- A number written in plain decimal form: optional sign, integer-part
digits (most significant first), fraction digits. -/
structure Dec where
  neg : Bool
  ip : List Nat
  fp : List Nat
deriving DecidableEq, Repr

/-- Value of a big-endian digit list. -/
def digitsVal (ds : List Nat) : Nat := ds.foldl (fun acc d => 10 * acc + d) 0

/-- Value of a fraction-digit list. -/
def fracVal (ds : List Nat) : ℚ := (digitsVal ds : ℚ) / (10 : ℚ) ^ ds.length

/-- The rational value denoted by a plain decimal literal. -/
def Dec.val (d : Dec) : ℚ :=
  (if d.neg then (-1 : ℚ) else 1) * ((digitsVal d.ip : ℚ) + fracVal d.fp)

/-- The written form of a plain decimal literal. -/
def Dec.render (d : Dec) : List Char :=
  (if d.neg then ['-'] else []) ++ d.ip.map digitChar ++
    (if d.fp.isEmpty then [] else '.' :: d.fp.map digitChar)

/-- Well-formedness of a plain decimal literal: at least one integer
digit, all digits below ten. -/
def Dec.WFb (d : Dec) : Bool :=
  !d.ip.isEmpty && (d.ip ++ d.fp).all (fun x => decide (x < 10))

/-- Value of a digit-character list. -/
def digitsValC (cs : List Char) : Nat := digitsVal (cs.map (fun c => c.toNat - 48))

/-- Magnitude part of the `parseFloat` model: leading digits, an optional
dot with further digits, anything after stops the parse; no digits at all
gives `NaN` (modelled as `none`). -/
def parseUnsigned (s : List Char) : Option ℚ :=
  let ds := s.takeWhile isDigitChar
  match s.drop ds.length with
  | '.' :: rest2 =>
    let fs := rest2.takeWhile isDigitChar
    if ds.isEmpty && fs.isEmpty then none
    else some ((digitsValC ds : ℚ) + (digitsValC fs : ℚ) / (10 : ℚ) ^ fs.length)
  | _ => if ds.isEmpty then none else some ((digitsValC ds : ℚ))

/-- Model of JavaScript `parseFloat` restricted to the strings the
`[-\d.]+` captures can produce (no exponents): optional sign then the
magnitude; `none` models `NaN`. -/
def parseFloatQ (s : List Char) : Option ℚ :=
  match s with
  | '-' :: rest => (parseUnsigned rest).map (fun q => -q)
  | '+' :: rest => parseUnsigned rest
  | _ => parseUnsigned s

/-- The literal characters `translate(`. -/
def headTranslate : List Char := ['t', 'r', 'a', 'n', 's', 'l', 'a', 't', 'e', '(']

/-- The literal characters `rotate(`. -/
def headRotate : List Char := ['r', 'o', 't', 'a', 't', 'e', '(']

/-- The literal characters `scale(`. -/
def headScale : List Char := ['s', 'c', 'a', 'l', 'e', '(']

/-- Match a literal prefix, returning the remainder. -/
def lit : List Char → List Char → Option (List Char)
  | [], s => some s
  | _ :: _, [] => none
  | l :: ls, c :: cs => if c = l then lit ls cs else none

/-- The argument separator `\s*[,\s]\s*` with the regex's
greedy-then-backtrack semantics: after the maximal whitespace run either
a comma (followed by more whitespace) is consumed, or — when the run is
nonempty — the run itself serves as the separator. -/
def sepArg (s : List Char) : Option (List Char) :=
  let ws := s.takeWhile isWSChar
  match s.drop ws.length with
  | c :: r =>
    if c = ',' then some (r.dropWhile isWSChar)
    else if ws.isEmpty then none else some (c :: r)
  | [] => if ws.isEmpty then none else some []

/-- Try `/translate\(\s*([-\d.]+)\s*[,\s]\s*([-\d.]+)\s*\)/` at the start
of the string, returning the two captures.  The captures are maximal
runs of `[-\d.]`: shrinking one would leave a class character where the
separator or `)` is required, so no backtracking alternative exists. -/
def tryTranslateAt (s : List Char) : Option (List Char × List Char) :=
  match lit headTranslate s with
  | none => none
  | some r0 =>
    let r1 := r0.dropWhile isWSChar
    let a := r1.takeWhile isNumChar
    if a.isEmpty then none
    else
      match sepArg (r1.drop a.length) with
      | none => none
      | some r2 =>
        let b := r2.takeWhile isNumChar
        if b.isEmpty then none
        else
          match (r2.drop b.length).dropWhile isWSChar with
          | c :: _ => if c = ')' then some (a, b) else none
          | [] => none

/-- Try `/rotate\(\s*([-\d.]+)/` at the start of the string. -/
def tryRotateAt (s : List Char) : Option (List Char) :=
  match lit headRotate s with
  | none => none
  | some r0 =>
    let r1 := r0.dropWhile isWSChar
    let a := r1.takeWhile isNumChar
    if a.isEmpty then none else some a

/-- Try `/scale\(\s*([-\d.]+)(?:\s*[,\s]\s*([-\d.]+))?\s*\)/` at the
start of the string: the optional second argument is tried first
(greedy), the one-argument form is the fallback. -/
def tryScaleAt (s : List Char) : Option (List Char × Option (List Char)) :=
  match lit headScale s with
  | none => none
  | some r0 =>
    let r1 := r0.dropWhile isWSChar
    let a := r1.takeWhile isNumChar
    if a.isEmpty then none
    else
      let r2 := r1.drop a.length
      let withPair : Option (List Char × Option (List Char)) :=
        match sepArg r2 with
        | none => none
        | some r3 =>
          let b := r3.takeWhile isNumChar
          if b.isEmpty then none
          else
            match (r3.drop b.length).dropWhile isWSChar with
            | c :: _ => if c = ')' then some (a, some b) else none
            | [] => none
      match withPair with
      | some res => some res
      | none =>
        match r2.dropWhile isWSChar with
        | c :: _ => if c = ')' then some (a, none) else none
        | [] => none

/-- Leftmost-match scan: try the matcher at every position, left to
right, as `String.prototype.match` does without the global flag. -/
def scan1 {α : Type} (f : List Char → Option α) : List Char → Option α
  | [] => f []
  | c :: t =>
    match f (c :: t) with
    | some r => some r
    | none => scan1 f t

/-- A transform component record whose five channels are written in
plain decimal form. -/
structure Tc where
  translateX : Dec
  translateY : Dec
  scaleX : Dec
  scaleY : Dec
  rotate : Dec
deriving DecidableEq, Repr

/-- The result record of `parseTransform`: five float channels, `none`
modelling `NaN`. -/
structure TcQ where
  translateX : Option ℚ
  translateY : Option ℚ
  scaleX : Option ℚ
  scaleY : Option ℚ
  rotate : Option ℚ
deriving DecidableEq, Repr

/-- The identity decomposition `(0, 0, 1, 1, 0)`. -/
def idTcQ : TcQ := ⟨some 0, some 0, some 1, some 1, some 0⟩

/-- The float values of a written component record. -/
def Tc.valsQ (c : Tc) : TcQ :=
  ⟨some c.translateX.val, some c.translateY.val, some c.scaleX.val,
   some c.scaleY.val, some c.rotate.val⟩

/-- Well-formedness of a written component record. -/
def Tc.WFb (c : Tc) : Bool :=
  c.translateX.WFb && c.translateY.WFb && c.scaleX.WFb && c.scaleY.WFb && c.rotate.WFb

/-- Body of `parseTransform` on a nonempty string: the translate, scale
and rotate patterns are matched independently against the whole string,
each filling its channels, with `scaleY` defaulting to the parsed
`scaleX` when the second scale argument is absent. -/
def parseTransformCore (cs : List Char) : TcQ :=
  let r1 :=
    match scan1 tryTranslateAt cs with
    | some (a, b) => { idTcQ with translateX := parseFloatQ a, translateY := parseFloatQ b }
    | none => idTcQ
  let r2 :=
    match scan1 tryScaleAt cs with
    | some (a, ob) =>
      let sx := parseFloatQ a
      { r1 with scaleX := sx,
                scaleY := match ob with
                          | some b => parseFloatQ b
                          | none => sx }
    | none => r1
  match scan1 tryRotateAt cs with
  | some a => { r2 with rotate := parseFloatQ a }
  | none => r2

/-- Model of `parseTransform` (`src/utils.js`): a missing or empty
transform (`if (!transformStr)`) decomposes to the identity; otherwise
the three patterns fill their channels. -/
def parseTransform (s : Option (List Char)) : TcQ :=
  match s with
  | none => idTcQ
  | some [] => idTcQ
  | some cs => parseTransformCore cs

/-- Join parts with single spaces, as `parts.join(' ')`. -/
def joinSp : List (List Char) → List Char
  | [] => []
  | [p] => p
  | p :: rest => p ++ ' ' :: joinSp rest

/-- Model of `buildTransform` (`src/utils.js`): emit the translate group
unless both translations are zero, then the rotate group unless zero,
then the scale group unless both scales are one; `none` models the
`null` returned when every group is at its identity. -/
def buildTransform (c : Tc) : Option (List Char) :=
  let parts : List (List Char) :=
    (if c.translateX.val ≠ 0 ∨ c.translateY.val ≠ 0 then
      [headTranslate ++ c.translateX.render ++ ',' :: c.translateY.render ++ [')']]
     else []) ++
    (if c.rotate.val ≠ 0 then [headRotate ++ c.rotate.render ++ [')']] else []) ++
    (if c.scaleX.val ≠ 1 ∨ c.scaleY.val ≠ 1 then
      [headScale ++ c.scaleX.render ++ ',' :: c.scaleY.render ++ [')']]
     else [])
  if parts.isEmpty then none else some (joinSp parts)

/-- The translate group emitted for a component record. -/
def tpartOf (c : Tc) : List Char :=
  headTranslate ++ c.translateX.render ++ ',' :: c.translateY.render ++ [')']

/-- The rotate group emitted for a component record. -/
def rpartOf (c : Tc) : List Char :=
  headRotate ++ c.rotate.render ++ [')']

/-- The scale group emitted for a component record. -/
def spartOf (c : Tc) : List Char :=
  headScale ++ c.scaleX.render ++ ',' :: c.scaleY.render ++ [')']

/-! ## Expansion-strategy dispatch and event predicates -/

/-- The expansion strategy chosen by `runAction`'s mode dispatch:
direct expansion when the mode is `'direct'`, sequence expansion
otherwise. -/
def expandFn (useDirect : Bool) (order : List String) (routes : RouteTable)
    (actionMs jsonMs : JVal) (valid : String → Bool) (s : String) :
    Except VfErr (List Step × String) :=
  if useDirect then expandDirect order s routes actionMs jsonMs valid
  else expandSequence order s routes actionMs jsonMs valid

/-- Whether a notification is an `error` notification. -/
def isErrorEv : Ev → Bool
  | .errorEv _ => true
  | _ => false

/-! ## Concrete fixtures used by witnesses and counterexamples -/

/-- Route table with a wildcard path, a source-specific path and no
block for other targets. -/
def wRoutesBlockT : RouteBlock :=
  ⟨.undef, fun s => if s = "s" then some ["a", "t"]
                    else if s = "*" then some ["w", "t"] else none⟩

/-- Route table for the `resolvePath` witness. -/
def wRoutes : RouteTable := fun k =>
  if k = "t" then some wRoutesBlockT else none

/-- The route table of the spec's direct-mode example:
`{ right: { "*": ["center","right"] } }`. -/
def exRoutes : RouteTable := fun k =>
  if k = "right" then some ⟨.undef, fun s => if s = "*" then some ["center", "right"] else none⟩
  else none

/-- Membership in `{left, center, right}`. -/
def validLCR : String → Bool := fun s => s = "left" || s = "center" || s = "right"

/-- Route table where the instruction entry `right` carries `ms: 50` and
the visited intermediate state `center` carries `ms: 70`, separating the
two candidate duration overrides. -/
def cexRoutes : RouteTable := fun k =>
  if k = "right" then
    some ⟨.fin 50, fun s => if s = "*" then some ["center", "right"] else none⟩
  else if k = "center" then some ⟨.fin 70, fun _ => none⟩
  else none

/-- Route table sending the alias key `go` around the cycle
`a → b → c → a`. -/
def loopRoutes : RouteTable := fun k =>
  if k = "go" then
    some ⟨.undef, fun s => if s = "a" then some ["b"]
                           else if s = "b" then some ["c"]
                           else if s = "c" then some ["a"] else none⟩
  else none

/-- Membership in `{a, b, c}`. -/
def validABC : String → Bool := fun s => s = "a" || s = "b" || s = "c"

/-- A sequence action moving to state `b`. -/
def actGoB : ActionN := ⟨.seq, ["b"], .undef, none, none⟩

/-- A sequence action visiting `b` then `c`. -/
def actGoBC : ActionN := ⟨.seq, ["b", "c"], .undef, none, none⟩

/-- A sequence action naming an undiscovered state `z`. -/
def actBad : ActionN := ⟨.seq, ["z"], .undef, none, none⟩

/-- Engine configuration over states `{a, b, c}` with no routes and the
three fixture actions. -/
def cfgABC : Config :=
  ⟨fun _ => none, .fin 120,
   fun n => if n = "goB" then some actGoB
            else if n = "goBC" then some actGoBC
            else if n = "bad" then some actBad else none,
   validABC⟩

/-- An idle engine currently at state `a`. -/
def engA : EngineSt := ⟨"a", none, none⟩

/-- A config registering a playable action under the empty-string key,
which `parseAndValidateJSON` keeps and `play("")` runs normally. -/
def cfgEmptyKey : Config :=
  ⟨fun _ => none, .fin 120, fun n => if n = "" then some actGoB else none, validABC⟩

/-- Route table sending the alias key `go` from `a` to `b` and from `b`
to the undiscovered state `zz`, so a loop's second iteration fails. -/
def loopBadRoutes : RouteTable := fun k =>
  if k = "go" then
    some ⟨.undef, fun s => if s = "a" then some ["b"]
                           else if s = "b" then some ["zz"] else none⟩
  else none

/-- A two-iteration loop over the failing alias route. -/
def actLoopBad : ActionN := ⟨.loop, ["go"], .undef, some 2, none⟩

/-- Config whose action `loopgo` moves to `b` in iteration one and
throws an unknown-state error while expanding iteration two. -/
def cfgLoopBad : Config :=
  ⟨loopBadRoutes, .fin 120, fun n => if n = "loopgo" then some actLoopBad else none,
   fun s => s = "a" || s = "b"⟩

/-- A concrete written component record: translate `(5, 0)`, scale
`(2, 1.5)`, rotation `-45`. -/
def tcEx : Tc :=
  ⟨⟨false, [5], []⟩, ⟨false, [0], []⟩, ⟨false, [2], []⟩, ⟨false, [1], [5]⟩, ⟨true, [4, 5], []⟩⟩

/-! ## Theorems -/

/-- C3: `resolvePath` returns `[target]` when no route block exists for
the target; otherwise the source-specific path verbatim when one exists
(winning over the wildcard); otherwise the wildcard path when one
exists; otherwise `[target]`. -/
theorem resolvePath_lookup_order (t s : String) (routes : RouteTable) :
    (routes t = none → resolvePath t s routes = [t]) ∧
    (∀ b : RouteBlock, routes t = some b →
      (∀ p, b.paths s = some p → resolvePath t s routes = p) ∧
      (b.paths s = none → ∀ w, b.paths "*" = some w → resolvePath t s routes = w) ∧
      (b.paths s = none → b.paths "*" = none → resolvePath t s routes = [t])) := by
  refine ⟨fun h => ?_, fun b hb => ⟨fun p hp => ?_, fun hn w hw => ?_, fun hn hw => ?_⟩⟩ <;>
    simp [resolvePath, *]

/-- Witness for C3 at a concrete route table: the source-specific path
wins over the wildcard, an unmatched source falls to the wildcard, and a
routeless target resolves to itself. -/
theorem resolvePath_lookup_order_witness :
    resolvePath "t" "s" wRoutes = ["a", "t"] ∧
    resolvePath "t" "x" wRoutes = ["w", "t"] ∧
    resolvePath "nope" "s" wRoutes = ["nope"] := by
  refine ⟨?_, ?_, ?_⟩
  · exact ((resolvePath_lookup_order "t" "s" wRoutes).2 wRoutesBlockT rfl).1 ["a", "t"] rfl
  · exact ((resolvePath_lookup_order "t" "x" wRoutes).2 wRoutesBlockT rfl).2.1 rfl ["w", "t"] rfl
  · exact (resolvePath_lookup_order "nope" "s" wRoutes).1 rfl

/-- C4 counterexample: `resolveMs` accepts a candidate via the
JavaScript test `typeof x === 'number' && x > 0`, which `Infinity`
passes, so `resolveMs(Infinity, 10, 20)` returns `Infinity` — not `10`
as the claim's finiteness requirement prescribes. -/
theorem resolveMs_infinity_cex :
    resolveMs JVal.inf (JVal.fin 10) (JVal.fin 20) = JVal.inf ∧
    resolveMs JVal.inf (JVal.fin 10) (JVal.fin 20) ≠ JVal.fin 10 := by
  decide

/-- C4 amended: `resolveMs` returns the first of its three candidates
that is a number strictly greater than zero under the JavaScript
comparison — so `NaN`, non-numbers and non-positive numbers are treated
as absent but positive `Infinity` is accepted — with fallback `120`;
the spec's concrete examples all hold. -/
theorem resolveMs_first_positive_number :
    (∀ a r g : JVal, resolveMs a r g = firstNumGtZero [a, r, g]) ∧
    resolveMs (.fin 5) (.fin 10) (.fin 20) = .fin 5 ∧
    resolveMs .undef (.fin 10) (.fin 20) = .fin 10 ∧
    resolveMs .undef .undef (.fin 20) = .fin 20 ∧
    resolveMs .undef .undef .undef = .fin 120 ∧
    resolveMs (.fin 0) (.fin 10) (.fin 20) = .fin 10 := by
  refine ⟨fun a r g => rfl, by decide, by decide, by decide, by decide, by decide⟩

/-- C1 counterexample: sequence-expanding the entry `right` from `left`
over `cexRoutes` emits the step to the visited intermediate state
`center` with duration `50` — taken from `routes["right"].ms` — although
the visited state's own override `routes["center"].ms = 70` would give
`70`; so `routes[routeKey].ms` does take precedence over
`routes[visitedState].ms`, contrary to the claim. -/
theorem expandSequence_routeKey_ms_cex :
    expandSequence ["right"] "left" cexRoutes .undef (.fin 120) validLCR =
      .ok ([⟨"center", .fin 50⟩, ⟨"right", .fin 50⟩], "right") ∧
    resolveMs .undef (msOf cexRoutes "center") (.fin 120) = .fin 70 ∧
    (JVal.fin 50 : JVal) ≠ JVal.fin 70 := by
  refine ⟨rfl, rfl, by decide⟩

/-- Helper: `getLast?.getD` of a nonempty list ignores the default. -/
theorem getD_getLast?_ne_nil {α : Type} (l : List α) (a b : α) (h : l ≠ []) :
    l.getLast?.getD a = l.getLast?.getD b := by
  rw [List.getLast?_eq_getLast_of_ne_nil h]
  rfl

/-- Helper: the inner loop of `expandSequence` over one entry's path
equals the spec-side per-entry map. -/
theorem seqPath_eq_specEntry (routes : RouteTable) (aMs jMs : JVal) (valid : String → Bool)
    (routeKey : String) (path : List String) (current : String) :
    seqPath routes aMs jMs valid routeKey path current =
      specEntry routes aMs jMs valid routeKey path current := by
  induction path generalizing current with
  | nil => rfl
  | cons next rest ih =>
    by_cases hv : valid next
    · rw [seqPath, if_pos hv, ih next]
      rw [specEntry, specEntry]
      simp only [List.find?_cons, hv, Bool.not_true]
      cases hfind : rest.find? (fun st => !valid st) with
      | some bad => rfl
      | none =>
        dsimp only [List.map_cons]
        rw [List.getLastD_cons]
    · rw [seqPath, if_neg hv, specEntry]
      simp [List.find?_cons, Bool.not_eq_true', hv]

/-- C1 amended: every step emitted by `expandSequence` for a visited
state `st` of the entry `routeKey`'s normalized path has duration
`resolveMs(actionMs, routes[routeKey]?.ms ?? routes[st]?.ms, jsonMs)` —
the entry's route-key override takes precedence over the visited state's
own override — as exhibited by the per-entry map form
`expandSequenceSpec`. -/
theorem expandSequence_ms_spec (order : List String) (currentState : String)
    (routes : RouteTable) (actionMs jsonMs : JVal) (valid : String → Bool) :
    expandSequence order currentState routes actionMs jsonMs valid =
      expandSequenceSpec order currentState routes actionMs jsonMs valid := by
  induction order generalizing currentState with
  | nil => rfl
  | cons routeKey restOrder ih =>
    rw [expandSequence, expandSequenceSpec, seqPath_eq_specEntry]
    cases specEntry routes actionMs jsonMs valid routeKey
        (normalizePath (resolvePath routeKey currentState routes) currentState) currentState with
    | error e => rfl
    | ok r =>
      obtain ⟨steps, cur2⟩ := r
      dsimp only
      rw [ih cur2]

/-- Helper: a successful inner sequence walk emits exactly the path's
states and lands on the path's last element. -/
theorem seqPath_ok_shape (routes : RouteTable) (aMs jMs : JVal) (valid : String → Bool)
    (routeKey : String) (path : List String) (current : String) (steps : List Step)
    (final : String)
    (h : seqPath routes aMs jMs valid routeKey path current = .ok (steps, final)) :
    steps.map Step.state = path ∧ final = path.getLastD current := by
  rw [seqPath_eq_specEntry, specEntry] at h
  cases hfind : path.find? (fun st => !valid st) with
  | some bad => rw [hfind] at h; exact absurd h (by simp)
  | none =>
    rw [hfind] at h
    injection h with h1
    injection h1 with hs hf
    subst hs
    exact ⟨by simp only [List.map_map]; exact List.map_id path, hf.symm⟩

/-- Helper: `getLastD` over a mapped list through `Option.elim`. -/
theorem getLastD_map_elim (l : List Step) (c : String) :
    (l.map Step.state).getLastD c = l.getLast?.elim c Step.state := by
  rw [List.getLastD_eq_getLast?, List.getLast?_map]
  cases l.getLast? <;> rfl

/-- Helper: a successful sequence expansion's final pointer is the last
emitted step's state, or the start when no step was emitted. -/
theorem expandSequence_ok_final (order : List String) (current : String)
    (routes : RouteTable) (aMs jMs : JVal) (valid : String → Bool)
    (steps : List Step) (final : String)
    (h : expandSequence order current routes aMs jMs valid = .ok (steps, final)) :
    final = steps.getLast?.elim current Step.state := by
  induction order generalizing current steps final with
  | nil =>
    rw [expandSequence] at h
    injection h with h1
    injection h1 with hs hf
    subst hs
    exact hf.symm
  | cons routeKey restOrder ih =>
    rw [expandSequence] at h
    cases h1 : seqPath routes aMs jMs valid routeKey
        (normalizePath (resolvePath routeKey current routes) current) current with
    | error e => rw [h1] at h; exact absurd h (by simp)
    | ok r =>
      obtain ⟨s1, c2⟩ := r
      rw [h1] at h
      dsimp only at h
      cases h2 : expandSequence restOrder c2 routes aMs jMs valid with
      | error e => rw [h2] at h; exact absurd h (by simp)
      | ok r2 =>
        obtain ⟨more, fin⟩ := r2
        rw [h2] at h
        injection h with h3
        injection h3 with hs hf
        subst hs hf
        have hc2 : c2 = s1.getLast?.elim current Step.state := by
          obtain ⟨hmap, hfin⟩ := seqPath_ok_shape _ _ _ _ _ _ _ _ _ h1
          rw [hfin, ← hmap, getLastD_map_elim]
        cases more with
        | nil =>
          have hfc : fin = c2 := by simpa using ih c2 [] fin h2
          rw [List.append_nil, hfc, hc2]
        | cons m ms =>
          have hrec := ih c2 (m :: ms) fin h2
          rw [hrec, List.getLast?_append_of_ne_nil s1 (List.cons_ne_nil m ms),
            List.getLast?_eq_getLast_of_ne_nil (List.cons_ne_nil m ms)]
          rfl

/-- Helper: a successful direct expansion's final pointer is the last
emitted step's state, or the start when no step was emitted. -/
theorem expandDirect_ok_final (order : List String) (current : String)
    (routes : RouteTable) (aMs jMs : JVal) (valid : String → Bool)
    (steps : List Step) (final : String)
    (h : expandDirect order current routes aMs jMs valid = .ok (steps, final)) :
    final = steps.getLast?.elim current Step.state := by
  induction order generalizing current steps final with
  | nil =>
    rw [expandDirect] at h
    injection h with h1
    injection h1 with hs hf
    subst hs
    exact hf.symm
  | cons routeKey restOrder ih =>
    rw [expandDirect] at h
    cases h0 : (resolvePath routeKey current routes).getLast? with
    | none => rw [h0] at h; exact absurd h (by simp)
    | some target =>
      rw [h0] at h
      dsimp only at h
      by_cases hv : valid target
      · rw [if_pos hv] at h
        by_cases heq : target = current
        · rw [if_pos heq] at h
          exact ih current steps final h
        · rw [if_neg heq] at h
          cases h2 : expandDirect restOrder target routes aMs jMs valid with
          | error e => rw [h2] at h; exact absurd h (by simp)
          | ok r2 =>
            obtain ⟨more, fin⟩ := r2
            rw [h2] at h
            injection h with h3
            injection h3 with hs hf
            subst hs hf
            have hrec := ih target more fin h2
            cases more with
            | nil => simpa using hrec
            | cons m ms =>
              rw [hrec, List.getLast?_cons_cons,
                List.getLast?_eq_getLast_of_ne_nil (List.cons_ne_nil m ms)]
              rfl
      · rw [if_neg hv] at h
        exact absurd h (by simp)

/-- C10: for every call to `expandSequence` or `expandDirect` that
returns, the returned final state equals the state of the last returned
step when the step list is nonempty, and the given starting state when
it is empty. -/
theorem expand_finalState_agrees (order : List String) (current : String)
    (routes : RouteTable) (aMs jMs : JVal) (valid : String → Bool)
    (steps : List Step) (final : String) :
    (expandSequence order current routes aMs jMs valid = .ok (steps, final) →
      final = steps.getLast?.elim current Step.state) ∧
    (expandDirect order current routes aMs jMs valid = .ok (steps, final) →
      final = steps.getLast?.elim current Step.state) :=
  ⟨expandSequence_ok_final order current routes aMs jMs valid steps final,
   expandDirect_ok_final order current routes aMs jMs valid steps final⟩

/-- Witness for C10 on the concrete example table: the sequence
expansion's pointer agrees with its two emitted steps, the direct
expansion's with its single step. -/
theorem expand_finalState_agrees_witness :
    ("right" : String) =
      ([⟨"center", .fin 120⟩, ⟨"right", .fin 120⟩] : List Step).getLast?.elim "left" Step.state ∧
    ("right" : String) =
      ([⟨"right", .fin 120⟩] : List Step).getLast?.elim "left" Step.state := by
  constructor
  · exact (expand_finalState_agrees ["right"] "left" exRoutes .undef (.fin 120) validLCR
      [⟨"center", .fin 120⟩, ⟨"right", .fin 120⟩] "right").1 rfl
  · exact (expand_finalState_agrees ["right"] "left" exRoutes .undef (.fin 120) validLCR
      [⟨"right", .fin 120⟩] "right").2 rfl

/-- C5: in direct expansion each entry's path is resolved through the
route table against the current pointer and only its last element is
kept: a destination equal to the current pointer is skipped with no step
emitted, any other valid destination contributes exactly one step; on
the spec's example table, sequence expansion of `["right"]` from `left`
yields the two steps `center, right` while direct expansion yields the
single step `right`. -/
theorem expandDirect_collapses (routeKey : String) (rest : List String) (current : String)
    (routes : RouteTable) (aMs jMs : JVal) (valid : String → Bool) (d : String) :
    ((resolvePath routeKey current routes).getLast? = some d → valid d = true →
      (d = current →
        expandDirect (routeKey :: rest) current routes aMs jMs valid =
          expandDirect rest current routes aMs jMs valid) ∧
      (d ≠ current →
        expandDirect (routeKey :: rest) current routes aMs jMs valid =
          (expandDirect rest d routes aMs jMs valid).map
            (fun r => (⟨d, entryMs routes aMs jMs routeKey d⟩ :: r.1, r.2)))) ∧
    expandSequence ["right"] "left" exRoutes .undef (.fin 120) validLCR =
      .ok ([⟨"center", .fin 120⟩, ⟨"right", .fin 120⟩], "right") ∧
    expandDirect ["right"] "left" exRoutes .undef (.fin 120) validLCR =
      .ok ([⟨"right", .fin 120⟩], "right") := by
  refine ⟨fun h0 hv => ⟨fun heq => ?_, fun hne => ?_⟩, rfl, rfl⟩
  · rw [expandDirect]
    rw [h0]
    dsimp only
    rw [if_pos hv, if_pos heq]
  · rw [expandDirect]
    rw [h0]
    dsimp only
    rw [if_pos hv, if_neg hne]
    cases expandDirect rest d routes aMs jMs valid with
    | error e => rfl
    | ok r => rfl

/-- Witness for C5: collapsing the entry `right` from `left` over the
example table prepends the single step to `right` in front of the
expansion of the remaining (empty) order. -/
theorem expandDirect_collapses_witness :
    expandDirect ["right"] "left" exRoutes .undef (.fin 120) validLCR =
      (expandDirect [] "right" exRoutes .undef (.fin 120) validLCR).map
        (fun r => (⟨"right", entryMs exRoutes .undef (.fin 120) "right" "right"⟩ :: r.1, r.2)) :=
  ((expandDirect_collapses "right" [] "left" exRoutes .undef (.fin 120) validLCR "right").1
    rfl rfl).2 (by decide)

/-- Helper: every step emitted by a successful sequence expansion
carries a state accepted by the validity predicate. -/
theorem expandSequence_steps_valid (order : List String) (current : String)
    (routes : RouteTable) (aMs jMs : JVal) (valid : String → Bool)
    (steps : List Step) (final : String)
    (h : expandSequence order current routes aMs jMs valid = .ok (steps, final)) :
    ∀ st ∈ steps, valid st.state = true := by
  induction order generalizing current steps final with
  | nil =>
    rw [expandSequence] at h
    injection h with h1
    injection h1 with hs hf
    subst hs
    intro st hst
    exact absurd hst (List.not_mem_nil st)
  | cons routeKey restOrder ih =>
    rw [expandSequence] at h
    cases h1 : seqPath routes aMs jMs valid routeKey
        (normalizePath (resolvePath routeKey current routes) current) current with
    | error e => rw [h1] at h; exact absurd h (by simp)
    | ok r =>
      obtain ⟨s1, c2⟩ := r
      rw [h1] at h
      dsimp only at h
      cases h2 : expandSequence restOrder c2 routes aMs jMs valid with
      | error e => rw [h2] at h; exact absurd h (by simp)
      | ok r2 =>
        obtain ⟨more, fin⟩ := r2
        rw [h2] at h
        injection h with h3
        injection h3 with hs hf
        subst hs
        intro st hst
        rcases List.mem_append.1 hst with h4 | h4
        · rw [seqPath_eq_specEntry, specEntry] at h1
          cases hfind : (normalizePath (resolvePath routeKey current routes)
              current).find? (fun st => !valid st) with
          | some bad => rw [hfind] at h1; exact absurd h1 (by simp)
          | none =>
            rw [hfind] at h1
            injection h1 with h5
            injection h5 with hs1 _
            subst hs1
            obtain ⟨x, hx, hxe⟩ := List.mem_map.1 h4
            have := List.find?_eq_none.1 hfind x hx
            subst hxe
            simpa using this
        · exact ih c2 more fin h2 st h4

/-- Helper: every step emitted by a successful direct expansion carries
a state accepted by the validity predicate. -/
theorem expandDirect_steps_valid (order : List String) (current : String)
    (routes : RouteTable) (aMs jMs : JVal) (valid : String → Bool)
    (steps : List Step) (final : String)
    (h : expandDirect order current routes aMs jMs valid = .ok (steps, final)) :
    ∀ st ∈ steps, valid st.state = true := by
  induction order generalizing current steps final with
  | nil =>
    rw [expandDirect] at h
    injection h with h1
    injection h1 with hs hf
    subst hs
    intro st hst
    exact absurd hst (List.not_mem_nil st)
  | cons routeKey restOrder ih =>
    rw [expandDirect] at h
    cases h0 : (resolvePath routeKey current routes).getLast? with
    | none => rw [h0] at h; exact absurd h (by simp)
    | some target =>
      rw [h0] at h
      dsimp only at h
      by_cases hv : valid target
      · rw [if_pos hv] at h
        by_cases heq : target = current
        · rw [if_pos heq] at h
          exact ih current steps final h
        · rw [if_neg heq] at h
          cases h2 : expandDirect restOrder target routes aMs jMs valid with
          | error e => rw [h2] at h; exact absurd h (by simp)
          | ok r2 =>
            obtain ⟨more, fin⟩ := r2
            rw [h2] at h
            injection h with h3
            injection h3 with hs hf
            subst hs
            intro st hst
            rcases List.mem_cons.1 hst with h4 | h4
            · subst h4; exact hv
            · exact ih target more fin h2 st h4
      · rw [if_neg hv] at h
        exact absurd h (by simp)

/-- Helper: when the empty string is not a discovered state, the
pointer update performed by a loop iteration — keep the seed when no
steps, otherwise `playSteps`' landing state — equals the expansion's
final pointer. -/
theorem expandFn_land (useDirect : Bool) (order : List String) (routes : RouteTable)
    (aMs jMs : JVal) (valid : String → Bool) (s : String) (steps : List Step) (fin : String)
    (hv : valid "" = false)
    (h : expandFn useDirect order routes aMs jMs valid s = .ok (steps, fin)) :
    (if steps.isEmpty then s else playStepsLand steps s) = fin := by
  have hfin : fin = steps.getLast?.elim s Step.state := by
    cases useDirect with
    | true => exact expandDirect_ok_final order s routes aMs jMs valid steps fin h
    | false => exact expandSequence_ok_final order s routes aMs jMs valid steps fin h
  have hval : ∀ st ∈ steps, valid st.state = true := by
    cases useDirect with
    | true => exact expandDirect_steps_valid order s routes aMs jMs valid steps fin h
    | false => exact expandSequence_steps_valid order s routes aMs jMs valid steps fin h
  cases hst : steps with
  | nil => subst hst; simpa using hfin.symm
  | cons m ms =>
    subst hst
    rw [if_neg (by simp)]
    rw [playStepsLand, List.getLast?_map, List.getLast?_eq_getLast_of_ne_nil
      (List.cons_ne_nil m ms)]
    have hmem : (m :: ms).getLast (List.cons_ne_nil m ms) ∈ m :: ms :=
      List.getLast_mem _
    have hvx : valid ((m :: ms).getLast (List.cons_ne_nil m ms)).state = true :=
      hval _ hmem
    have hne : ((m :: ms).getLast (List.cons_ne_nil m ms)).state ≠ "" := by
      intro hcon
      rw [hcon] at hvx
      rw [hvx] at hv
      exact absurd hv (by simp)
    rw [hfin, List.getLast?_eq_getLast_of_ne_nil (List.cons_ne_nil m ms)]
    simp only [Option.map_some, Option.getD_some, Option.elim_some]
    exact if_neg hne

/-- C6: a successful loop run of `count` iterations produces exactly one
(possibly empty) step list per iteration, each iteration's expansion is
re-run seeded from the state where the previous iteration landed — the
iterated `landState` — and the final pointer is the `count`-fold
iterate; in particular a zero-step iteration still consumes an
iteration and is still re-expanded the next cycle. -/
theorem runLoop_reseeds_from_landing (useDirect : Bool) (order : List String)
    (routes : RouteTable) (aMs jMs : JVal) (valid : String → Bool) (count : Nat)
    (start : String) (iters : List (List Step)) (final : String)
    (hv : valid "" = false)
    (hrun : runLoop (expandFn useDirect order routes aMs jMs valid) count start =
      .ok (iters, final)) :
    iters.length = count ∧
    final = (landState (expandFn useDirect order routes aMs jMs valid))^[count] start ∧
    (∀ i, i < count →
      iters.get? i = some (okSteps (expandFn useDirect order routes aMs jMs valid
        ((landState (expandFn useDirect order routes aMs jMs valid))^[i] start)))) := by
  induction count generalizing start iters with
  | zero =>
    rw [runLoop] at hrun
    injection hrun with h1
    injection h1 with hs hf
    subst hs
    exact ⟨rfl, hf.symm, fun i hi => absurd hi (Nat.not_lt_zero i)⟩
  | succ n ih =>
    rw [runLoop] at hrun
    cases hx : expandFn useDirect order routes aMs jMs valid start with
    | error e => rw [hx] at hrun; exact absurd hrun (by simp)
    | ok r =>
      obtain ⟨steps, fin⟩ := r
      rw [hx] at hrun
      dsimp only at hrun
      cases hr : runLoop (expandFn useDirect order routes aMs jMs valid) n
          (if steps.isEmpty then start else playStepsLand steps start) with
      | error e => rw [hr] at hrun; exact absurd hrun (by simp)
      | ok r2 =>
        obtain ⟨rest, fin2⟩ := r2
        rw [hr] at hrun
        injection hrun with h1
        injection h1 with hs hf
        subst hs hf
        have hcur : (if steps.isEmpty then start else playStepsLand steps start) = fin :=
          expandFn_land useDirect order routes aMs jMs valid start steps fin hv hx
        have hland : landState (expandFn useDirect order routes aMs jMs valid) start = fin := by
          rw [landState, hx]
        rw [hcur] at hr
        obtain ⟨hlen, hfin2, hget⟩ := ih fin rest hr
        refine ⟨by simpa using hlen, ?_, ?_⟩
        · rw [Function.iterate_succ_apply, hland, hfin2]
        · intro i hi
          cases i with
          | zero =>
            simp only [List.get?_cons_zero, Function.iterate_zero, id]
            rw [okSteps.eq_def, hx]
          | succ j =>
            have hj : j < n := Nat.lt_of_succ_lt_succ hi
            simp only [List.get?_cons_succ]
            rw [hget j hj, Function.iterate_succ_apply, hland]

/-- Witness for C6: the loop over the alias route `go` run for three
iterations from `a` lands on `b`, `c`, `a` in turn — one single-step
list per iteration, the final pointer being the three-fold landing
iterate. -/
theorem runLoop_reseeds_witness :
    ([[⟨"b", .fin 120⟩], [⟨"c", .fin 120⟩], [⟨"a", .fin 120⟩]] : List (List Step)).length = 3 ∧
    ("a" : String) = (landState (expandFn false ["go"] loopRoutes .undef (.fin 120) validABC))^[3] "a" := by
  have h := runLoop_reseeds_from_landing false ["go"] loopRoutes .undef (.fin 120) validABC
    3 "a" [[⟨"b", .fin 120⟩], [⟨"c", .fin 120⟩], [⟨"a", .fin 120⟩]] "a" rfl rfl
  exact ⟨h.1, h.2.1⟩

/-- C2, evaluated at a failing input: a `play` that completes naturally
emits exactly one `actionEnd` and clears the recorded action name, but
the abort controller installed at the start of the call is never cleared
on the natural-completion path, so `isPlaying` still reports `true`
afterwards — not `false` as the claim states. -/
theorem play_completion_leaves_controller :
    playNat cfgABC engA "goB" =
      (⟨"b", some false, none⟩,
       [Ev.actionStart "goB", Ev.stateChange "b", Ev.actionEnd "goB"], .retNormal) ∧
    (playNat cfgABC engA "goB").2.1.count (Ev.actionEnd "goB") = 1 ∧
    (playNat cfgABC engA "goB").1.currentActionName = none ∧
    isPlaying (playNat cfgABC engA "goB").1 = true := by
  refine ⟨rfl, by decide, rfl, rfl⟩

/-- Helper: `stop()` never emits an error notification. -/
theorem stopFn_no_error (e : EngineSt) : (stopFn e).2.countP (fun ev => isErrorEv ev) = 0 := by
  rw [stopFn]
  cases e.ctrl with
  | none => rfl
  | some ab =>
    cases e.currentActionName with
    | none => rfl
    | some n =>
      dsimp only
      by_cases hn : n = ""
      · rw [if_pos hn]
        rfl
      · rw [if_neg hn]
        rfl

/-- Helper: `stop()` leaves the recorded current state untouched. -/
theorem stopFn_state (e : EngineSt) : (stopFn e).1.currentState = e.currentState := by
  rw [stopFn]
  cases e.ctrl with
  | none => rfl
  | some ab =>
    cases e.currentActionName with
    | none => rfl
    | some n =>
      dsimp only
      by_cases hn : n = ""
      · rw [if_pos hn]
      · rw [if_neg hn]

/-- Helper: `stop()` with no controller is the identity and emits
nothing. -/
theorem stopFn_idle (e : EngineSt) (h : e.ctrl = none) : stopFn e = (e, []) := by
  rw [stopFn, h]

/-- Helper: `stop()` emits no `actionEnd` for action `a` unless the
recorded action name is `a`. -/
theorem stopFn_count_end (e : EngineSt) (a : String) (h : e.ctrl = none) :
    (stopFn e).2.count (Ev.actionEnd a) = 0 := by
  rw [stopFn_idle e h]
  rfl

/-- C7: stopping an engine whose session is mid-playback — after `k`
fully completed steps of the expanded sequence — emits exactly one
`actionEnd` for the stopped action, clears both the controller and the
action name, and leaves the recorded current state at the last fully
completed step's state (the start state when no step completed); and
`stop()` on an engine with no session is a no-op emitting nothing. -/
theorem stop_semantics (cfg : Config) (e : EngineSt) (a : String) (act : ActionN)
    (k : Nat) (steps : List Step) (fin : String)
    (hctrl : e.ctrl = none) (ha0 : a ≠ "")
    (ha : cfg.actions a = some act) (ho : act.order.isEmpty = false)
    (hx : expandSequence act.order e.currentState cfg.routes act.ms cfg.ms cfg.valid =
      .ok (steps, fin))
    (_hk : k < steps.length) :
    (playInterrupted cfg e a k).2.count (Ev.actionEnd a) = 1 ∧
    (playInterrupted cfg e a k).1.ctrl = none ∧
    (playInterrupted cfg e a k).1.currentActionName = none ∧
    (playInterrupted cfg e a k).1.currentState =
      ((steps.take k).map Step.state).getLastD e.currentState ∧
    (∀ e' : EngineSt, e'.ctrl = none → stopFn e' = (e', [])) ∧
    (∀ (e' : EngineSt) (ab : Bool), e'.ctrl = some ab → e'.currentActionName = some "" →
      stopFn e' = ({ e' with ctrl := none }, [])) := by
  have hplay : playInterrupted cfg e a k =
      (⟨((steps.take k).map Step.state).getLastD e.currentState, none, none⟩,
       [Ev.actionStart a] ++ ((steps.take k).map Step.state).map Ev.stateChange ++
         [Ev.actionEnd a]) := by
    rw [playInterrupted, ha]
    dsimp only
    rw [if_neg (by simp [ho])]
    rw [stopFn_idle e hctrl]
    dsimp only
    rw [hx]
    dsimp only
    rw [stopFn]
    dsimp only
    rw [if_neg ha0]
    rfl
  refine ⟨?_, ?_, ?_, ?_, ?_, ?_⟩
  · rw [hplay]
    have h0 : Ev.actionEnd a ∉ ((steps.take k).map Step.state).map Ev.stateChange := by
      intro hmem
      obtain ⟨x, _, hxe⟩ := List.mem_map.1 hmem
      exact absurd hxe (by simp)
    rw [List.count_append, List.count_append, List.count_eq_zero.2 h0]
    simp
  · rw [hplay]
  · rw [hplay]
  · rw [hplay]
  · exact fun e' h' => stopFn_idle e' h'
  · intro e' ab hab hname
    rw [stopFn, hab, hname]
    dsimp only
    rw [if_pos rfl]

/-- Witness for C7: interrupting the two-step action `goBC` after its
first completed step yields one `actionEnd`, a cleared session, and the
recorded state `b` — the completed step's state, not the interrupted
step's destination `c`. -/
theorem stop_semantics_witness :
    (playInterrupted cfgABC engA "goBC" 1).2.count (Ev.actionEnd "goBC") = 1 ∧
    (playInterrupted cfgABC engA "goBC" 1).1.ctrl = none ∧
    (playInterrupted cfgABC engA "goBC" 1).1.currentActionName = none ∧
    (playInterrupted cfgABC engA "goBC" 1).1.currentState =
      ((([⟨"b", .fin 120⟩, ⟨"c", .fin 120⟩] : List Step).take 1).map Step.state).getLastD "a" := by
  have h := stop_semantics cfgABC engA "goBC" actGoBC 1
    [⟨"b", .fin 120⟩, ⟨"c", .fin 120⟩] "c" rfl (by decide) rfl rfl rfl (by decide)
  exact ⟨h.1, h.2.1, h.2.2.1, h.2.2.2.1⟩

/-- Counterexample to the frozen C7: a session registered under the
empty-string action name — reachable because `parseAndValidateJSON`
keeps empty keys and `play("")` proceeds normally — is not ended by
`stop()`: the `if (this._currentActionName)` truthiness test treats `""`
as falsy, so no `actionEnd` fires and the name is left in place; only
the controller is cleared. -/
theorem stop_empty_name_cex :
    (playInterrupted cfgEmptyKey engA "" 0).2.count (Ev.actionEnd "") = 0 ∧
    (playInterrupted cfgEmptyKey engA "" 0).1.currentActionName = some "" ∧
    (playInterrupted cfgEmptyKey engA "" 0).1.ctrl = none := by
  refine ⟨?_, ?_, ?_⟩ <;> rfl

/-- C8: an unregistered action name makes `play` emit exactly one error
notification and throw, touching nothing — no session is created.  An
unknown state discovered during expansion aborts the freshly created
session (the action name is cleared) and surfaces exactly one error
notification, but the recorded current state keeps whatever value the
`stateChange` callbacks of the steps completed before the throw had
given it — the last completed step's state, the pre-call state only when
no step completed; for a sequence-kind action the single expansion
precedes all playback, so there the state is always unchanged.  A
cancelled run emits no error notification at all. -/
theorem play_error_surfacing (cfg : Config) (e : EngineSt) (a : String) :
    (cfg.actions a = none →
      playNat cfg e a = (e, [Ev.errorEv (.unknownAction a)], .threw (.unknownAction a))) ∧
    (∀ act changes err, cfg.actions a = some act → act.order.isEmpty = false →
      runActionNat act e.currentState cfg.routes cfg.ms cfg.valid = .error (changes, err) →
      (playNat cfg e a).1.currentState = changes.getLastD e.currentState ∧
      (playNat cfg e a).1.currentActionName = none ∧
      (playNat cfg e a).2.1.countP (fun ev => isErrorEv ev) = 1 ∧
      (playNat cfg e a).2.2 = .threw (.expandFail err)) ∧
    (∀ act changes err, cfg.actions a = some act → act.kind = .seq →
      act.order.isEmpty = false →
      runActionNat act e.currentState cfg.routes cfg.ms cfg.valid = .error (changes, err) →
      (playNat cfg e a).1.currentState = e.currentState) ∧
    (∀ act k steps fin, cfg.actions a = some act → act.order.isEmpty = false →
      expandSequence act.order e.currentState cfg.routes act.ms cfg.ms cfg.valid =
        .ok (steps, fin) →
      (playInterrupted cfg e a k).2.countP (fun ev => isErrorEv ev) = 0) := by
  have hmain : ∀ (act : ActionN) (changes : List String) (err : VfErr),
      cfg.actions a = some act → act.order.isEmpty = false →
      runActionNat act e.currentState cfg.routes cfg.ms cfg.valid = .error (changes, err) →
      (playNat cfg e a).1.currentState = changes.getLastD e.currentState ∧
      (playNat cfg e a).1.currentActionName = none ∧
      (playNat cfg e a).2.1.countP (fun ev => isErrorEv ev) = 1 ∧
      (playNat cfg e a).2.2 = .threw (.expandFail err) := by
    intro act changes err ha ho herr
    have hplay : playNat cfg e a =
        ({ (stopFn e).1 with
            currentState := changes.getLastD e.currentState,
            ctrl := some false,
            currentActionName := none },
         (stopFn e).2 ++ [Ev.actionStart a] ++ changes.map Ev.stateChange ++
           [Ev.errorEv (.expandFail err)],
         .threw (.expandFail err)) := by
      rw [playNat, ha]
      dsimp only
      rw [if_neg (by simp [ho])]
      have hcur : (stopFn e).1.currentState = e.currentState := stopFn_state e
      rw [hcur, herr]
    rw [hplay]
    refine ⟨rfl, rfl, ?_, rfl⟩
    have h0 : (changes.map Ev.stateChange).countP (fun ev => isErrorEv ev) = 0 := by
      rw [List.countP_eq_zero]
      intro ev hmem
      obtain ⟨x, _, hxe⟩ := List.mem_map.1 hmem
      rw [← hxe]
      simp [isErrorEv]
    rw [List.countP_append, List.countP_append, List.countP_append,
      stopFn_no_error e, h0]
    rfl
  refine ⟨fun h => by rw [playNat, h],
    fun act changes err ha ho herr => hmain act changes err ha ho herr,
    fun act changes err ha hk ho herr => ?_, fun act k steps fin ha ho hx => ?_⟩
  · have hch : changes = [] := by
      rw [runActionNat, hk] at herr
      dsimp only at herr
      cases hxx : expandSequence act.order e.currentState cfg.routes act.ms cfg.ms cfg.valid with
      | error e2 =>
        rw [hxx] at herr
        dsimp only at herr
        injection herr with h1
        injection h1 with h2 h3
        exact h2.symm
      | ok p =>
        rw [hxx] at herr
        dsimp only at herr
        split at herr <;> simp at herr
    have h1 := (hmain act changes err ha ho herr).1
    rw [hch] at h1
    exact h1
  · set e3 : EngineSt :=
      { (stopFn e).1 with
        currentState := ((steps.take k).map Step.state).getLastD e.currentState,
        ctrl := some false, currentActionName := some a } with he3
    have hplay : (playInterrupted cfg e a k).2 =
        (stopFn e).2 ++ [Ev.actionStart a] ++
          ((steps.take k).map Step.state).map Ev.stateChange ++ (stopFn e3).2 := by
      rw [playInterrupted, ha]
      dsimp only
      rw [if_neg (by simp [ho])]
      rw [stopFn_state e, hx]
    have h0 : (((steps.take k).map Step.state).map Ev.stateChange).countP
        (fun ev => isErrorEv ev) = 0 := by
      rw [List.countP_eq_zero]
      intro ev hmem
      obtain ⟨x, _, hxe⟩ := List.mem_map.1 hmem
      rw [← hxe]
      simp [isErrorEv]
    rw [hplay, List.countP_append, List.countP_append, List.countP_append,
      stopFn_no_error e, stopFn_no_error e3, h0]
    rfl

/-- Witness for C8: playing the unregistered name `nope` leaves the
engine untouched and surfaces one error; playing the sequence `bad`
(whose order names the undiscovered state `z`) clears the session name,
keeps the current state at `a` — no step had completed — and surfaces
exactly one error; interrupting the valid action `goBC` emits no error
notification. -/
theorem play_error_surfacing_witness :
    playNat cfgABC engA "nope" =
      (engA, [Ev.errorEv (.unknownAction "nope")], .threw (.unknownAction "nope")) ∧
    ((playNat cfgABC engA "bad").1.currentState = "a" ∧
      (playNat cfgABC engA "bad").1.currentActionName = none ∧
      (playNat cfgABC engA "bad").2.1.countP (fun ev => isErrorEv ev) = 1) ∧
    (playInterrupted cfgABC engA "goBC" 0).2.countP (fun ev => isErrorEv ev) = 0 := by
  refine ⟨(play_error_surfacing cfgABC engA "nope").1 rfl, ?_, ?_⟩
  · have hseq := (play_error_surfacing cfgABC engA "bad").2.2.1 actBad []
      (.unknownState "z" (some "z")) rfl rfl rfl rfl
    have h := (play_error_surfacing cfgABC engA "bad").2.1 actBad []
      (.unknownState "z" (some "z")) rfl rfl rfl
    exact ⟨hseq, h.2.1, h.2.2.1⟩
  · exact (play_error_surfacing cfgABC engA "goBC").2.2.2 actGoBC 0
      [⟨"b", .fin 120⟩, ⟨"c", .fin 120⟩] "c" rfl rfl rfl

/-- Counterexample to the frozen C8: a two-iteration loop over route
`go` (`a → b`, `b → zz` with `zz` undiscovered) fails while expanding
its second iteration, after the first iteration's `stateChange` has
already moved the recorded state to `b`; the catch clears only the
action name, so `play` leaves the current state at `b`, not at the
pre-call state `a` — one error notification still fires and the call
throws. -/
theorem play_loop_error_state_cex :
    (playNat cfgLoopBad engA "loopgo").1.currentState = "b" ∧
    engA.currentState = "a" ∧
    (playNat cfgLoopBad engA "loopgo").2.1.countP (fun ev => isErrorEv ev) = 1 ∧
    (playNat cfgLoopBad engA "loopgo").2.2 =
      .threw (.expandFail (.unknownState "go" (some "zz"))) := by
  refine ⟨?_, ?_, ?_, ?_⟩ <;> rfl

/-! ### Character-class and scanning helper lemmas for the transform
round trip -/

/-- Helper: characters of the capture class are never whitespace. -/
theorem numChar_not_ws (c : Char) (h : isNumChar c = true) : isWSChar c = false := by
  rw [isNumChar, Bool.or_eq_true, Bool.or_eq_true] at h
  rcases h with (h | h) | h
  · rw [decide_eq_true_eq] at h; subst h; rfl
  · rw [decide_eq_true_eq] at h; subst h; rfl
  · rw [isDigitChar, Bool.and_eq_true, decide_eq_true_eq, decide_eq_true_eq] at h
    obtain ⟨h1, h2⟩ := h
    rw [isWSChar]
    have e1 : c ≠ ' ' := by rintro rfl; revert h1; decide
    have e2 : c ≠ '\t' := by rintro rfl; revert h1; decide
    have e3 : c ≠ '\n' := by rintro rfl; revert h1; decide
    have e4 : c ≠ '\r' := by rintro rfl; revert h1; decide
    simp [e1, e2, e3, e4]

/-- Helper: a capture-class character differs from any character outside
the class. -/
theorem numChar_ne (c ch : Char) (h : isNumChar c = true) (hch : isNumChar ch = false) :
    c ≠ ch := by
  rintro rfl
  rw [h] at hch
  exact Bool.noConfusion hch

/-- Helper: `takeWhile` runs through a block that satisfies the
predicate. -/
theorem takeWhile_append_all {p : Char → Bool} (xs ys : List Char)
    (h : ∀ x ∈ xs, p x = true) :
    (xs ++ ys).takeWhile p = xs ++ ys.takeWhile p := by
  induction xs with
  | nil => rfl
  | cons x xs ih =>
    rw [List.cons_append, List.takeWhile_cons_of_pos (h x (List.mem_cons_self x xs)),
      ih (fun y hy => h y (List.mem_cons_of_mem x hy)), List.cons_append]

/-- Helper: `takeWhile` of a block followed by a failing head is the
block itself, and the rest is recovered by `drop`. -/
theorem capture_block {p : Char → Bool} (xs ys : List Char)
    (h : ∀ x ∈ xs, p x = true) (hy : ∀ c, ys.head? = some c → p c = false) :
    (xs ++ ys).takeWhile p = xs ∧
    (xs ++ ys).drop ((xs ++ ys).takeWhile p).length = ys := by
  have ht : (xs ++ ys).takeWhile p = xs := by
    rw [takeWhile_append_all xs ys h]
    cases ys with
    | nil => rw [List.takeWhile_nil, List.append_nil]
    | cons y ys' =>
      rw [List.takeWhile_cons_of_neg (by simp [hy y rfl]), List.append_nil]
  refine ⟨ht, ?_⟩
  rw [ht, List.drop_left]

/-- Helper: `dropWhile` does not move over a failing head. -/
theorem dropWhile_head_fail {p : Char → Bool} (s : List Char)
    (h : ∀ c, s.head? = some c → p c = false) : s.dropWhile p = s := by
  cases s with
  | nil => rfl
  | cons x xs => rw [List.dropWhile_cons_of_neg (by simp [h x rfl])]

/-- Helper: decimal digit characters are digit-class characters. -/
theorem isDigitChar_digitChar (d : Nat) (h : d < 10) : isDigitChar (digitChar d) = true := by
  interval_cases d <;> decide

/-- Helper: the byte value of a decimal digit character. -/
theorem digitChar_toNat (d : Nat) (h : d < 10) : (digitChar d).toNat = 48 + d := by
  interval_cases d <;> decide

/-- Helper: every character of a well-formed render is in the capture
class. -/
theorem render_all_numChar (d : Dec) (h : d.WFb = true) :
    ∀ c ∈ d.render, isNumChar c = true := by
  rw [Dec.WFb, Bool.and_eq_true, List.all_eq_true] at h
  obtain ⟨_, hd⟩ := h
  intro c hc
  rw [Dec.render] at hc
  rcases List.mem_append.1 hc with hc | hc
  · rcases List.mem_append.1 hc with hc | hc
    · cases hneg : d.neg with
      | true => rw [hneg] at hc; simp at hc; subst hc; rfl
      | false => rw [hneg] at hc; simp at hc
    · obtain ⟨x, hx, hxe⟩ := List.mem_map.1 hc
      subst hxe
      have hx10 : x < 10 := by
        have := hd x (List.mem_append.2 (Or.inl hx))
        simpa using this
      rw [isNumChar, isDigitChar_digitChar x hx10]
      simp
  · cases hfp : d.fp.isEmpty with
    | true => rw [hfp] at hc; simp at hc
    | false =>
      rw [hfp] at hc
      rcases List.mem_cons.1 hc with hc | hc
      · subst hc; rfl
      · obtain ⟨x, hx, hxe⟩ := List.mem_map.1 hc
        subst hxe
        have hx10 : x < 10 := by
          have := hd x (List.mem_append.2 (Or.inr hx))
          simpa using this
        rw [isNumChar, isDigitChar_digitChar x hx10]
        simp

/-- Helper: a well-formed render is nonempty. -/
theorem render_ne_nil (d : Dec) (h : d.WFb = true) : d.render ≠ [] := by
  rw [Dec.WFb, Bool.and_eq_true] at h
  obtain ⟨h1, _⟩ := h
  rw [Dec.render]
  intro hcon
  rcases List.append_eq_nil.1 hcon with ⟨h2, _⟩
  rcases List.append_eq_nil.1 h2 with ⟨_, h3⟩
  cases hip : d.ip with
  | nil => rw [hip] at h1; simp at h1
  | cons i ips => rw [hip] at h3; simp at h3

/-- Helper: the numeric value read off mapped digit characters. -/
theorem digitsValC_map (ds : List Nat) (h : ∀ x ∈ ds, x < 10) :
    digitsValC (ds.map digitChar) = digitsVal ds := by
  rw [digitsValC, List.map_map]
  congr 1
  rw [List.map_eq_map_iff.2 ?_, List.map_id]
  intro x hx
  rw [Function.comp_apply, digitChar_toNat x (h x hx), Nat.add_sub_cancel_left]
  rfl

/-- Helper: digit characters of a well-formed literal are below ten. -/
theorem wf_ip_digits (d : Dec) (h : d.WFb = true) : ∀ x ∈ d.ip, x < 10 := by
  rw [Dec.WFb, Bool.and_eq_true, List.all_eq_true] at h
  intro x hx
  simpa using h.2 x (List.mem_append.2 (Or.inl hx))

/-- Helper: fraction digits of a well-formed literal are below ten. -/
theorem wf_fp_digits (d : Dec) (h : d.WFb = true) : ∀ x ∈ d.fp, x < 10 := by
  rw [Dec.WFb, Bool.and_eq_true, List.all_eq_true] at h
  intro x hx
  simpa using h.2 x (List.mem_append.2 (Or.inr hx))

/-- Helper: the unsigned magnitude of a rendered literal parses back to
its value. -/
theorem parseUnsigned_render (d : Dec) (h : d.WFb = true) :
    parseUnsigned (d.ip.map digitChar ++
      (if d.fp.isEmpty then [] else '.' :: d.fp.map digitChar)) =
      some ((digitsVal d.ip : ℚ) + fracVal d.fp) := by
  have hipne : d.ip ≠ [] := by
    rw [Dec.WFb, Bool.and_eq_true] at h
    intro hcon
    rw [hcon] at h
    simp at h
  have hipd : ∀ c ∈ d.ip.map digitChar, isDigitChar c = true := by
    intro c hc
    obtain ⟨x, hx, hxe⟩ := List.mem_map.1 hc
    subst hxe
    exact isDigitChar_digitChar x (wf_ip_digits d h x hx)
  have hfpd := wf_fp_digits d h
  cases hfp : d.fp with
  | nil =>
    dsimp only [List.isEmpty_nil]
    rw [if_pos rfl, List.append_nil, parseUnsigned]
    have ht : (d.ip.map digitChar).takeWhile isDigitChar = d.ip.map digitChar := by
      have := takeWhile_append_all (d.ip.map digitChar) [] hipd
      rwa [List.append_nil, List.takeWhile_nil, List.append_nil] at this
    rw [ht, List.drop_length]
    have hne : (d.ip.map digitChar).isEmpty = false := by
      cases hip : d.ip with
      | nil => exact absurd hip hipne
      | cons i ips => rfl
    rw [if_neg (by rw [hne]; exact Bool.noConfusion)]
    rw [digitsValC_map d.ip (wf_ip_digits d h)]
    rw [fracVal]
    norm_num [digitsVal]
  | cons f fs =>
    rw [hfp] at hfpd
    dsimp only [List.isEmpty_cons]
    rw [if_neg (by exact Bool.noConfusion), parseUnsigned]
    obtain ⟨ht, _hd⟩ := capture_block (p := isDigitChar) (d.ip.map digitChar)
      ('.' :: (f :: fs).map digitChar) hipd (by intro c hc; injection hc with hc; subst hc; rfl)
    rw [ht, List.drop_left]
    have ht2 : ((f :: fs).map digitChar).takeWhile isDigitChar = (f :: fs).map digitChar := by
      have hfd : ∀ c ∈ (f :: fs).map digitChar, isDigitChar c = true := by
        intro c hc
        obtain ⟨x, hx, hxe⟩ := List.mem_map.1 hc
        subst hxe
        exact isDigitChar_digitChar x (hfpd x hx)
      have := takeWhile_append_all ((f :: fs).map digitChar) [] hfd
      rwa [List.append_nil, List.takeWhile_nil, List.append_nil] at this
    have hne : (d.ip.map digitChar).isEmpty = false := by
      cases hip : d.ip with
      | nil => exact absurd hip hipne
      | cons i ips => rfl
    split
    · rename_i rest2 heq
      injection heq with _ hrest
      subst hrest
      rw [ht2, if_neg (by rw [hne]; exact Bool.noConfusion)]
      rw [digitsValC_map d.ip (wf_ip_digits d h), digitsValC_map (f :: fs) hfpd,
        fracVal, List.length_map]
    · rename_i hbad
      exact absurd rfl (hbad (List.map digitChar (f :: fs)))

/-- Helper: a rendered digit character is not a sign character. -/
theorem digitChar_ne_sign (i : Nat) (h : i < 10) :
    digitChar i ≠ '-' ∧ digitChar i ≠ '+' := by
  interval_cases i <;> exact ⟨by decide, by decide⟩

/-- Helper: `parseFloat` on a string that starts with neither sign just
parses the magnitude. -/
theorem parseFloatQ_default (c : Char) (rest : List Char) (h1 : c ≠ '-') (h2 : c ≠ '+') :
    parseFloatQ (c :: rest) = parseUnsigned (c :: rest) := by
  rw [parseFloatQ.eq_def]
  split
  · rename_i heq
    injection heq with hc _
    exact absurd hc h1
  · rename_i heq
    injection heq with hc _
    exact absurd hc h2
  · rfl

/-- Helper: `parseFloat` recovers the value of every well-formed plain
decimal literal from its written form. -/
theorem parseFloatQ_render (d : Dec) (h : d.WFb = true) :
    parseFloatQ d.render = some d.val := by
  have hipne : d.ip ≠ [] := by
    rw [Dec.WFb, Bool.and_eq_true] at h
    intro hcon
    rw [hcon] at h
    simp at h
  cases hneg : d.neg with
  | true =>
    have hr : d.render = '-' :: (d.ip.map digitChar ++
        (if d.fp.isEmpty then [] else '.' :: d.fp.map digitChar)) := by
      rw [Dec.render, hneg]
      rfl
    rw [hr, parseFloatQ, parseUnsigned_render d h, Option.map_some']
    rw [Dec.val, hneg]
    norm_num
  | false =>
    have hr : d.render = d.ip.map digitChar ++
        (if d.fp.isEmpty then [] else '.' :: d.fp.map digitChar) := by
      rw [Dec.render, hneg]
      rfl
    cases hip : d.ip with
    | nil => exact absurd hip hipne
    | cons i ips =>
      have hi10 : i < 10 := wf_ip_digits d h i (by rw [hip]; exact List.mem_cons_self i ips)
      have hr2 : d.render = digitChar i :: (ips.map digitChar ++
          (if d.fp.isEmpty then [] else '.' :: d.fp.map digitChar)) := by
        rw [hr, hip]
        rfl
      rw [hr2, parseFloatQ_default _ _ (digitChar_ne_sign i hi10).1 (digitChar_ne_sign i hi10).2,
        ← List.cons_append, ← List.map_cons, ← hip, parseUnsigned_render d h]
      rw [Dec.val, hneg]
      norm_num

/-- Helper: a nonempty list is not `isEmpty`. -/
theorem isEmpty_false_of_ne_nil (l : List Char) (h : l ≠ []) : l.isEmpty = false := by
  cases l with
  | nil => exact absurd rfl h
  | cons a t => rfl

/-- Helper: a literal matches its own prefix, leaving the rest. -/
theorem lit_append (l rest : List Char) : lit l (l ++ rest) = some rest := by
  induction l with
  | nil => rfl
  | cons c ls ih => rw [List.cons_append, lit, if_pos rfl, ih]

/-- Helper: a successful literal match pins down the string's shape. -/
theorem lit_shape (l : List Char) : ∀ s r, lit l s = some r → s = l ++ r := by
  induction l with
  | nil =>
    intro s r h
    rw [lit] at h
    injection h with h
  | cons c ls ih =>
    intro s r h
    cases s with
    | nil => rw [lit] at h; exact Option.noConfusion h
    | cons x xs =>
      rw [lit] at h
      by_cases hx : x = c
      · rw [if_pos hx] at h
        subst hx
        rw [List.cons_append, ih xs r h]
      · rw [if_neg hx] at h
        exact Option.noConfusion h

/-- Helper: the separator after a comma consumes the comma and the
following whitespace. -/
theorem sepArg_comma (r : List Char) : sepArg (',' :: r) = some (r.dropWhile isWSChar) := by
  rw [sepArg]
  rw [List.takeWhile_cons_of_neg (by decide)]
  dsimp only [List.length_nil, List.drop_zero]
  rw [if_pos rfl]

/-- Helper: the translate pattern matches its own serialized form,
capturing the two rendered arguments. -/
theorem tryTranslateAt_hit (A B tail : List Char)
    (hA : ∀ c ∈ A, isNumChar c = true) (hAne : A ≠ [])
    (hB : ∀ c ∈ B, isNumChar c = true) (hBne : B ≠ []) :
    tryTranslateAt (headTranslate ++ (A ++ ',' :: (B ++ ')' :: tail))) = some (A, B) := by
  rw [tryTranslateAt, lit_append]
  dsimp only
  have hArest : ∀ c, (A ++ ',' :: (B ++ ')' :: tail)).head? = some c → isWSChar c = false := by
    intro c hc
    cases A with
    | nil => exact absurd rfl hAne
    | cons a as =>
      rw [List.cons_append, List.head?_cons] at hc
      injection hc with hc
      subst hc
      exact numChar_not_ws a (hA a (List.mem_cons_self a as))
  rw [dropWhile_head_fail _ hArest]
  obtain ⟨ht, _⟩ := capture_block A (',' :: (B ++ ')' :: tail)) hA
    (by intro c hc; injection hc with hc; subst hc; rfl)
  rw [ht, if_neg (by rw [isEmpty_false_of_ne_nil A hAne]; exact Bool.noConfusion),
    List.drop_left, sepArg_comma]
  have hBrest : ∀ c, (B ++ ')' :: tail).head? = some c → isWSChar c = false := by
    intro c hc
    cases B with
    | nil => exact absurd rfl hBne
    | cons b bs =>
      rw [List.cons_append, List.head?_cons] at hc
      injection hc with hc
      subst hc
      exact numChar_not_ws b (hB b (List.mem_cons_self b bs))
  rw [dropWhile_head_fail _ hBrest]
  dsimp only
  obtain ⟨ht2, _⟩ := capture_block B (')' :: tail) hB
    (by intro c hc; injection hc with hc; subst hc; rfl)
  rw [ht2, if_neg (by rw [isEmpty_false_of_ne_nil B hBne]; exact Bool.noConfusion),
    List.drop_left, dropWhile_head_fail _ (by intro c hc; injection hc with hc; subst hc; rfl)]
  dsimp only
  rw [if_pos rfl]

/-- Helper: the rotate pattern matches its own serialized form,
capturing the rendered argument. -/
theorem tryRotateAt_hit (R tail : List Char)
    (hR : ∀ c ∈ R, isNumChar c = true) (hRne : R ≠ []) :
    tryRotateAt (headRotate ++ (R ++ ')' :: tail)) = some R := by
  rw [tryRotateAt, lit_append]
  dsimp only
  have hRrest : ∀ c, (R ++ ')' :: tail).head? = some c → isWSChar c = false := by
    intro c hc
    cases R with
    | nil => exact absurd rfl hRne
    | cons r rs =>
      rw [List.cons_append, List.head?_cons] at hc
      injection hc with hc
      subst hc
      exact numChar_not_ws r (hR r (List.mem_cons_self r rs))
  rw [dropWhile_head_fail _ hRrest]
  obtain ⟨ht, _⟩ := capture_block R (')' :: tail) hR
    (by intro c hc; injection hc with hc; subst hc; rfl)
  rw [ht, if_neg (by rw [isEmpty_false_of_ne_nil R hRne]; exact Bool.noConfusion)]

/-- Helper: the scale pattern matches its own serialized two-argument
form, capturing both rendered arguments. -/
theorem tryScaleAt_hit (C D tail : List Char)
    (hC : ∀ c ∈ C, isNumChar c = true) (hCne : C ≠ [])
    (hD : ∀ c ∈ D, isNumChar c = true) (hDne : D ≠ []) :
    tryScaleAt (headScale ++ (C ++ ',' :: (D ++ ')' :: tail))) = some (C, some D) := by
  rw [tryScaleAt, lit_append]
  dsimp only
  have hCrest : ∀ c, (C ++ ',' :: (D ++ ')' :: tail)).head? = some c → isWSChar c = false := by
    intro c hc
    cases C with
    | nil => exact absurd rfl hCne
    | cons a as =>
      rw [List.cons_append, List.head?_cons] at hc
      injection hc with hc
      subst hc
      exact numChar_not_ws a (hC a (List.mem_cons_self a as))
  rw [dropWhile_head_fail _ hCrest]
  obtain ⟨ht, _⟩ := capture_block C (',' :: (D ++ ')' :: tail)) hC
    (by intro c hc; injection hc with hc; subst hc; rfl)
  rw [ht, if_neg (by rw [isEmpty_false_of_ne_nil C hCne]; exact Bool.noConfusion),
    List.drop_left, sepArg_comma]
  have hDrest : ∀ c, (D ++ ')' :: tail).head? = some c → isWSChar c = false := by
    intro c hc
    cases D with
    | nil => exact absurd rfl hDne
    | cons b bs =>
      rw [List.cons_append, List.head?_cons] at hc
      injection hc with hc
      subst hc
      exact numChar_not_ws b (hD b (List.mem_cons_self b bs))
  rw [dropWhile_head_fail _ hDrest]
  dsimp only
  obtain ⟨ht2, _⟩ := capture_block D (')' :: tail) hD
    (by intro c hc; injection hc with hc; subst hc; rfl)
  rw [ht2, if_neg (by rw [isEmpty_false_of_ne_nil D hDne]; exact Bool.noConfusion),
    List.drop_left, dropWhile_head_fail _ (by intro c hc; injection hc with hc; subst hc; rfl)]
  dsimp only
  rw [if_pos rfl]

/-- Helper: a scan succeeds immediately when the matcher fires at the
start. -/
theorem scan1_here {α : Type} (f : List Char → Option α) (s : List Char) (r : α)
    (h : f s = some r) : scan1 f s = some r := by
  cases s with
  | nil => rw [scan1]; exact h
  | cons c t => rw [scan1, h]

/-- Helper: a scan passes over a prefix at which the matcher never
fires. -/
theorem scan1_skip {α : Type} (f : List Char → Option α) (x rest : List Char)
    (h : ∀ i, i < x.length → f (List.drop i (x ++ rest)) = none) :
    scan1 f (x ++ rest) = scan1 f rest := by
  induction x with
  | nil => rfl
  | cons c xs ih =>
    rw [List.cons_append, scan1]
    have h0 := h 0 (Nat.succ_pos _)
    rw [List.drop_zero, List.cons_append] at h0
    rw [h0]
    exact ih (fun i hi => by
      have := h (i + 1) (Nat.succ_lt_succ hi)
      rwa [List.cons_append, List.drop_succ_cons] at this)

/-- Helper: a scan over a string at which the matcher never fires
returns nothing. -/
theorem scan1_none {α : Type} (f : List Char → Option α) (s : List Char)
    (h : ∀ i, f (s.drop i) = none) : scan1 f s = none := by
  induction s with
  | nil =>
    rw [scan1]
    have := h 0
    rwa [List.drop_nil] at this
  | cons c t ih =>
    rw [scan1]
    have h0 := h 0
    rw [List.drop_zero] at h0
    rw [h0]
    exact ih (fun i => by
      have := h (i + 1)
      rwa [List.drop_succ_cons] at this)

/-- Helper: a translate match forces the literal header, hence an `n`
at index three. -/
theorem tryTranslateAt_char (s : List Char) (p : List Char × List Char)
    (h : tryTranslateAt s = some p) : s[3]? = some 'n' := by
  cases hl : lit headTranslate s with
  | none => rw [tryTranslateAt, hl] at h; exact Option.noConfusion h
  | some r0 =>
    rw [lit_shape headTranslate s r0 hl]
    rfl

/-- Helper: a rotate match forces the literal header, hence an `o` at
index one. -/
theorem tryRotateAt_char (s : List Char) (p : List Char)
    (h : tryRotateAt s = some p) : s[1]? = some 'o' := by
  cases hl : lit headRotate s with
  | none => rw [tryRotateAt, hl] at h; exact Option.noConfusion h
  | some r0 =>
    rw [lit_shape headRotate s r0 hl]
    rfl

/-- Helper: a scale match forces the literal header, hence a `c` at
index one. -/
theorem tryScaleAt_char (s : List Char) (p : List Char × Option (List Char))
    (h : tryScaleAt s = some p) : s[1]? = some 'c' := by
  cases hl : lit headScale s with
  | none => rw [tryScaleAt, hl] at h; exact Option.noConfusion h
  | some r0 =>
    rw [lit_shape headScale s r0 hl]
    rfl

/-- Helper: a scan fails everywhere when a character the matcher
requires at a fixed index does not occur in the string. -/
theorem scan1_none_of_char {α : Type} (f : List Char → Option α) (ch : Char) (idx : Nat)
    (hf : ∀ s p, f s = some p → s[idx]? = some ch) (s : List Char) (hch : ch ∉ s) :
    scan1 f s = none := by
  apply scan1_none
  intro i
  cases hfi : f (s.drop i) with
  | none => rfl
  | some p =>
    exfalso
    have hc := hf _ _ hfi
    rw [List.getElem?_drop] at hc
    exact hch (List.getElem?_mem hc)

/-- Helper: a scan passes over a prefix free of the character the
matcher requires at index one, provided the rest does not supply it at
the junction. -/
theorem scan1_skip_of_char {α : Type} (f : List Char → Option α) (ch : Char)
    (hf : ∀ s p, f s = some p → s[1]? = some ch) (x rest : List Char)
    (hx : ch ∉ x) (hr : rest[0]? ≠ some ch) :
    scan1 f (x ++ rest) = scan1 f rest := by
  apply scan1_skip
  intro i hi
  cases hfi : f ((x ++ rest).drop i) with
  | none => rfl
  | some p =>
    exfalso
    have hc := hf _ _ hfi
    rw [List.getElem?_drop] at hc
    rcases Nat.lt_or_ge (i + 1) x.length with hlt | hge
    · rw [List.getElem?_append_left hlt] at hc
      exact hx (List.getElem?_mem hc)
    · have hxe : i + 1 = x.length := Nat.le_antisymm (Nat.succ_le_of_lt hi) hge
      rw [List.getElem?_append_right hge, hxe, Nat.sub_self] at hc
      exact hr hc

/-- Helper: the five well-formedness facts of a well-formed component
record. -/
theorem wfb_fields (c : Tc) (h : c.WFb = true) :
    c.translateX.WFb = true ∧ c.translateY.WFb = true ∧ c.scaleX.WFb = true ∧
      c.scaleY.WFb = true ∧ c.rotate.WFb = true := by
  rw [Tc.WFb] at h
  simp only [Bool.and_eq_true] at h
  exact ⟨h.1.1.1.1, h.1.1.1.2, h.1.1.2, h.1.2, h.2⟩

/-- Helper: `parseTransform` on a nonempty string runs the core. -/
theorem parseTransform_some (s : List Char) (h : s ≠ []) :
    parseTransform (some s) = parseTransformCore s := by
  cases s with
  | nil => exact absurd rfl h
  | cons c cs => rfl

/-- Helper: `buildTransform` phrased through the named parts. -/
theorem buildTransform_parts (c : Tc) :
    buildTransform c =
      (let parts : List (List Char) :=
        (if c.translateX.val ≠ 0 ∨ c.translateY.val ≠ 0 then [tpartOf c] else []) ++
        (if c.rotate.val ≠ 0 then [rpartOf c] else []) ++
        (if c.scaleX.val ≠ 1 ∨ c.scaleY.val ≠ 1 then [spartOf c] else [])
       if parts.isEmpty then none else some (joinSp parts)) := rfl

/-- Helper: the translate part followed by anything, in matcher shape. -/
theorem tpart_as_shape (c : Tc) (tail : List Char) :
    tpartOf c ++ tail =
      headTranslate ++ (c.translateX.render ++ ',' :: (c.translateY.render ++ ')' :: tail)) := by
  rw [tpartOf]
  simp [List.append_assoc]

/-- Helper: the translate part alone, in matcher shape. -/
theorem tpart_as_shape_nil (c : Tc) :
    tpartOf c =
      headTranslate ++ (c.translateX.render ++ ',' :: (c.translateY.render ++ ')' :: [])) := by
  rw [← List.append_nil (tpartOf c), tpart_as_shape]

/-- Helper: the rotate part followed by anything, in matcher shape. -/
theorem rpart_as_shape (c : Tc) (tail : List Char) :
    rpartOf c ++ tail = headRotate ++ (c.rotate.render ++ ')' :: tail) := by
  rw [rpartOf]
  simp [List.append_assoc]

/-- Helper: the rotate part alone, in matcher shape. -/
theorem rpart_as_shape_nil (c : Tc) :
    rpartOf c = headRotate ++ (c.rotate.render ++ ')' :: []) := by
  rw [← List.append_nil (rpartOf c), rpart_as_shape]

/-- Helper: the scale part followed by anything, in matcher shape. -/
theorem spart_as_shape (c : Tc) (tail : List Char) :
    spartOf c ++ tail =
      headScale ++ (c.scaleX.render ++ ',' :: (c.scaleY.render ++ ')' :: tail)) := by
  rw [spartOf]
  simp [List.append_assoc]

/-- Helper: the scale part alone, in matcher shape. -/
theorem spart_as_shape_nil (c : Tc) :
    spartOf c = headScale ++ (c.scaleX.render ++ ',' :: (c.scaleY.render ++ ')' :: [])) := by
  rw [← List.append_nil (spartOf c), spart_as_shape]

/-- Helper: classification of the translate part's characters. -/
theorem mem_tpartOf (c : Tc) (hX : c.translateX.WFb = true) (hY : c.translateY.WFb = true)
    (ch : Char) (h : ch ∈ tpartOf c) :
    ch ∈ headTranslate ∨ isNumChar ch = true ∨ ch = ',' ∨ ch = ')' := by
  rw [tpartOf] at h
  rcases List.mem_append.1 h with h | h
  · rcases List.mem_append.1 h with h | h
    · rcases List.mem_append.1 h with h | h
      · exact Or.inl h
      · exact Or.inr (Or.inl (render_all_numChar _ hX ch h))
    · rcases List.mem_cons.1 h with h | h
      · exact Or.inr (Or.inr (Or.inl h))
      · exact Or.inr (Or.inl (render_all_numChar _ hY ch h))
  · rcases List.mem_singleton.1 h with h
    exact Or.inr (Or.inr (Or.inr h))

/-- Helper: classification of the rotate part's characters. -/
theorem mem_rpartOf (c : Tc) (hR : c.rotate.WFb = true) (ch : Char) (h : ch ∈ rpartOf c) :
    ch ∈ headRotate ∨ isNumChar ch = true ∨ ch = ')' := by
  rw [rpartOf] at h
  rcases List.mem_append.1 h with h | h
  · rcases List.mem_append.1 h with h | h
    · exact Or.inl h
    · exact Or.inr (Or.inl (render_all_numChar _ hR ch h))
  · rcases List.mem_singleton.1 h with h
    exact Or.inr (Or.inr h)

/-- Helper: classification of the scale part's characters. -/
theorem mem_spartOf (c : Tc) (hX : c.scaleX.WFb = true) (hY : c.scaleY.WFb = true)
    (ch : Char) (h : ch ∈ spartOf c) :
    ch ∈ headScale ∨ isNumChar ch = true ∨ ch = ',' ∨ ch = ')' := by
  rw [spartOf] at h
  rcases List.mem_append.1 h with h | h
  · rcases List.mem_append.1 h with h | h
    · rcases List.mem_append.1 h with h | h
      · exact Or.inl h
      · exact Or.inr (Or.inl (render_all_numChar _ hX ch h))
    · rcases List.mem_cons.1 h with h | h
      · exact Or.inr (Or.inr (Or.inl h))
      · exact Or.inr (Or.inl (render_all_numChar _ hY ch h))
  · rcases List.mem_singleton.1 h with h
    exact Or.inr (Or.inr (Or.inr h))

/-- Helper: a character outside the header, class, comma and paren sets
does not occur in the translate part. -/
theorem not_mem_tpartOf (c : Tc) (hX : c.translateX.WFb = true) (hY : c.translateY.WFb = true)
    (ch : Char) (h1 : ch ∉ headTranslate) (h2 : isNumChar ch = false)
    (h3 : ch ≠ ',') (h4 : ch ≠ ')') : ch ∉ tpartOf c := by
  intro hmem
  rcases mem_tpartOf c hX hY ch hmem with h | h | h | h
  · exact h1 h
  · rw [h] at h2; exact Bool.noConfusion h2
  · exact h3 h
  · exact h4 h

/-- Helper: a character outside the header, class and paren sets does
not occur in the rotate part. -/
theorem not_mem_rpartOf (c : Tc) (hR : c.rotate.WFb = true) (ch : Char)
    (h1 : ch ∉ headRotate) (h2 : isNumChar ch = false) (h4 : ch ≠ ')') :
    ch ∉ rpartOf c := by
  intro hmem
  rcases mem_rpartOf c hR ch hmem with h | h | h
  · exact h1 h
  · rw [h] at h2; exact Bool.noConfusion h2
  · exact h4 h

/-- Helper: a character outside the header, class, comma and paren sets
does not occur in the scale part. -/
theorem not_mem_spartOf (c : Tc) (hX : c.scaleX.WFb = true) (hY : c.scaleY.WFb = true)
    (ch : Char) (h1 : ch ∉ headScale) (h2 : isNumChar ch = false)
    (h3 : ch ≠ ',') (h4 : ch ≠ ')') : ch ∉ spartOf c := by
  intro hmem
  rcases mem_spartOf c hX hY ch hmem with h | h | h | h
  · exact h1 h
  · rw [h] at h2; exact Bool.noConfusion h2
  · exact h3 h
  · exact h4 h

/-- Helper: the first character of the rotate part and anything after
it. -/
theorem rpart_head (c : Tc) (tail : List Char) : (rpartOf c ++ tail)[0]? = some 'r' := by
  rw [rpartOf]
  rfl

/-- Helper: the first character of the scale part and anything after
it. -/
theorem spart_head (c : Tc) (tail : List Char) : (spartOf c ++ tail)[0]? = some 's' := by
  rw [spartOf]
  rfl

/-- Helper: the translate part is nonempty. -/
theorem tpart_ne_nil (c : Tc) : tpartOf c ≠ [] := by
  rw [tpartOf]
  simp [headTranslate]

/-- Helper: the rotate part is nonempty. -/
theorem rpart_ne_nil (c : Tc) : rpartOf c ≠ [] := by
  rw [rpartOf]
  simp [headRotate]

/-- Helper: the scale part is nonempty. -/
theorem spart_ne_nil (c : Tc) : spartOf c ≠ [] := by
  rw [spartOf]
  simp [headScale]

/-- Helper: the first character of the rotate part alone. -/
theorem rpart_head_nil (c : Tc) : (rpartOf c)[0]? = some 'r' := by
  rw [rpartOf]
  rfl

/-- Helper: the first character of the scale part alone. -/
theorem spart_head_nil (c : Tc) : (spartOf c)[0]? = some 's' := by
  rw [spartOf]
  rfl

/-- Helper: round trip of `buildTransform` then `parseTransform` at the
value level, for every well-formed written component record. -/
theorem parse_build_eq_vals (c : Tc) (h : c.WFb = true) :
    parseTransform (buildTransform c) = c.valsQ := by
  obtain ⟨hX, hY, hSx, hSy, hRo⟩ := wfb_fields c h
  have hXa := render_all_numChar _ hX
  have hYa := render_all_numChar _ hY
  have hSxa := render_all_numChar _ hSx
  have hSya := render_all_numChar _ hSy
  have hRa := render_all_numChar _ hRo
  have hXne := render_ne_nil _ hX
  have hYne := render_ne_nil _ hY
  have hSxne := render_ne_nil _ hSx
  have hSyne := render_ne_nil _ hSy
  have hRne := render_ne_nil _ hRo
  have hn_r : 'n' ∉ rpartOf c := not_mem_rpartOf c hRo 'n' (by decide) (by decide) (by decide)
  have hn_s : 'n' ∉ spartOf c :=
    not_mem_spartOf c hSx hSy 'n' (by decide) (by decide) (by decide) (by decide)
  have ho_t : 'o' ∉ tpartOf c :=
    not_mem_tpartOf c hX hY 'o' (by decide) (by decide) (by decide) (by decide)
  have ho_s : 'o' ∉ spartOf c :=
    not_mem_spartOf c hSx hSy 'o' (by decide) (by decide) (by decide) (by decide)
  have hc_t : 'c' ∉ tpartOf c :=
    not_mem_tpartOf c hX hY 'c' (by decide) (by decide) (by decide) (by decide)
  have hc_r : 'c' ∉ rpartOf c := not_mem_rpartOf c hRo 'c' (by decide) (by decide) (by decide)
  have hpX := parseFloatQ_render _ hX
  have hpY := parseFloatQ_render _ hY
  have hpSx := parseFloatQ_render _ hSx
  have hpSy := parseFloatQ_render _ hSy
  have hpR := parseFloatQ_render _ hRo
  by_cases hT : c.translateX.val ≠ 0 ∨ c.translateY.val ≠ 0 <;>
    by_cases hR : c.rotate.val ≠ 0 <;>
    by_cases hS : c.scaleX.val ≠ 1 ∨ c.scaleY.val ≠ 1
  · -- translate, rotate, scale all present
    have hbuilt : buildTransform c =
        some (tpartOf c ++ ' ' :: (rpartOf c ++ ' ' :: spartOf c)) := by
      rw [buildTransform_parts]
      dsimp only
      rw [if_pos hT, if_pos hR, if_pos hS]
      rfl
    have hsT : scan1 tryTranslateAt (tpartOf c ++ ' ' :: (rpartOf c ++ ' ' :: spartOf c)) =
        some (c.translateX.render, c.translateY.render) := by
      rw [tpart_as_shape]
      exact scan1_here _ _ _ (tryTranslateAt_hit _ _ _ hXa hXne hYa hYne)
    have hsR : scan1 tryRotateAt (tpartOf c ++ ' ' :: (rpartOf c ++ ' ' :: spartOf c)) =
        some c.rotate.render := by
      rw [show tpartOf c ++ ' ' :: (rpartOf c ++ ' ' :: spartOf c) =
            (tpartOf c ++ [' ']) ++ (rpartOf c ++ ' ' :: spartOf c) from by simp,
        scan1_skip_of_char tryRotateAt 'o' tryRotateAt_char (tpartOf c ++ [' '])
          (rpartOf c ++ ' ' :: spartOf c)
          (by
            intro hm
            rcases List.mem_append.1 hm with hm | hm
            · exact ho_t hm
            · revert hm
              decide)
          (by rw [rpart_head]; decide),
        rpart_as_shape]
      exact scan1_here _ _ _ (tryRotateAt_hit _ _ hRa hRne)
    have hsS : scan1 tryScaleAt (tpartOf c ++ ' ' :: (rpartOf c ++ ' ' :: spartOf c)) =
        some (c.scaleX.render, some c.scaleY.render) := by
      rw [show tpartOf c ++ ' ' :: (rpartOf c ++ ' ' :: spartOf c) =
            (tpartOf c ++ [' ']) ++ (rpartOf c ++ ' ' :: spartOf c) from by simp,
        scan1_skip_of_char tryScaleAt 'c' tryScaleAt_char (tpartOf c ++ [' '])
          (rpartOf c ++ ' ' :: spartOf c)
          (by
            intro hm
            rcases List.mem_append.1 hm with hm | hm
            · exact hc_t hm
            · revert hm
              decide)
          (by rw [rpart_head]; decide),
        show rpartOf c ++ ' ' :: spartOf c = (rpartOf c ++ [' ']) ++ spartOf c from by simp,
        scan1_skip_of_char tryScaleAt 'c' tryScaleAt_char (rpartOf c ++ [' ']) (spartOf c)
          (by
            intro hm
            rcases List.mem_append.1 hm with hm | hm
            · exact hc_r hm
            · revert hm
              decide)
          (by rw [spart_head_nil]; decide),
        spart_as_shape_nil]
      exact scan1_here _ _ _ (tryScaleAt_hit _ _ _ hSxa hSxne hSya hSyne)
    have hne2 : tpartOf c ++ ' ' :: (rpartOf c ++ ' ' :: spartOf c) ≠ [] := by
      intro hcon
      exact tpart_ne_nil c (List.append_eq_nil.1 hcon).1
    rw [hbuilt, parseTransform_some _ hne2, parseTransformCore, hsT, hsS, hsR]
    dsimp only
    rw [hpX, hpY, hpSx, hpSy, hpR]
    rfl
  · -- translate and rotate present, scale omitted
    push_neg at hS
    have hS' : ¬(c.scaleX.val ≠ 1 ∨ c.scaleY.val ≠ 1) := by push_neg; exact hS
    have hbuilt : buildTransform c = some (tpartOf c ++ ' ' :: rpartOf c) := by
      rw [buildTransform_parts]
      dsimp only
      rw [if_pos hT, if_pos hR, if_neg hS']
      rfl
    have hsT : scan1 tryTranslateAt (tpartOf c ++ ' ' :: rpartOf c) =
        some (c.translateX.render, c.translateY.render) := by
      rw [tpart_as_shape]
      exact scan1_here _ _ _ (tryTranslateAt_hit _ _ _ hXa hXne hYa hYne)
    have hsR : scan1 tryRotateAt (tpartOf c ++ ' ' :: rpartOf c) = some c.rotate.render := by
      rw [show tpartOf c ++ ' ' :: rpartOf c = (tpartOf c ++ [' ']) ++ rpartOf c from by simp,
        scan1_skip_of_char tryRotateAt 'o' tryRotateAt_char (tpartOf c ++ [' ']) (rpartOf c)
          (by
            intro hm
            rcases List.mem_append.1 hm with hm | hm
            · exact ho_t hm
            · revert hm
              decide)
          (by rw [rpart_head_nil]; decide),
        rpart_as_shape_nil]
      exact scan1_here _ _ _ (tryRotateAt_hit _ _ hRa hRne)
    have hsS : scan1 tryScaleAt (tpartOf c ++ ' ' :: rpartOf c) = none := by
      apply scan1_none_of_char tryScaleAt 'c' 1 tryScaleAt_char
      intro hm
      rcases List.mem_append.1 hm with hm | hm
      · exact hc_t hm
      · rcases List.mem_cons.1 hm with hm | hm
        · revert hm; decide
        · exact hc_r hm
    have hne2 : tpartOf c ++ ' ' :: rpartOf c ≠ [] := by
      intro hcon
      exact tpart_ne_nil c (List.append_eq_nil.1 hcon).1
    rw [hbuilt, parseTransform_some _ hne2, parseTransformCore, hsT, hsS, hsR]
    dsimp only
    rw [hpX, hpY, hpR, Tc.valsQ, hS.1, hS.2]
    rfl
  · -- translate and scale present, rotate omitted
    push_neg at hR
    have hR' : ¬(c.rotate.val ≠ 0) := by push_neg; exact hR
    have hbuilt : buildTransform c = some (tpartOf c ++ ' ' :: spartOf c) := by
      rw [buildTransform_parts]
      dsimp only
      rw [if_pos hT, if_neg hR', if_pos hS]
      rfl
    have hsT : scan1 tryTranslateAt (tpartOf c ++ ' ' :: spartOf c) =
        some (c.translateX.render, c.translateY.render) := by
      rw [tpart_as_shape]
      exact scan1_here _ _ _ (tryTranslateAt_hit _ _ _ hXa hXne hYa hYne)
    have hsR : scan1 tryRotateAt (tpartOf c ++ ' ' :: spartOf c) = none := by
      apply scan1_none_of_char tryRotateAt 'o' 1 tryRotateAt_char
      intro hm
      rcases List.mem_append.1 hm with hm | hm
      · exact ho_t hm
      · rcases List.mem_cons.1 hm with hm | hm
        · revert hm; decide
        · exact ho_s hm
    have hsS : scan1 tryScaleAt (tpartOf c ++ ' ' :: spartOf c) =
        some (c.scaleX.render, some c.scaleY.render) := by
      rw [show tpartOf c ++ ' ' :: spartOf c = (tpartOf c ++ [' ']) ++ spartOf c from by simp,
        scan1_skip_of_char tryScaleAt 'c' tryScaleAt_char (tpartOf c ++ [' ']) (spartOf c)
          (by
            intro hm
            rcases List.mem_append.1 hm with hm | hm
            · exact hc_t hm
            · revert hm
              decide)
          (by rw [spart_head_nil]; decide),
        spart_as_shape_nil]
      exact scan1_here _ _ _ (tryScaleAt_hit _ _ _ hSxa hSxne hSya hSyne)
    have hne2 : tpartOf c ++ ' ' :: spartOf c ≠ [] := by
      intro hcon
      exact tpart_ne_nil c (List.append_eq_nil.1 hcon).1
    rw [hbuilt, parseTransform_some _ hne2, parseTransformCore, hsT, hsS, hsR]
    dsimp only
    rw [hpX, hpY, hpSx, hpSy, Tc.valsQ, hR]
    rfl
  · -- only translate present
    push_neg at hR hS
    have hR' : ¬(c.rotate.val ≠ 0) := by push_neg; exact hR
    have hS' : ¬(c.scaleX.val ≠ 1 ∨ c.scaleY.val ≠ 1) := by push_neg; exact hS
    have hbuilt : buildTransform c = some (tpartOf c) := by
      rw [buildTransform_parts]
      dsimp only
      rw [if_pos hT, if_neg hR', if_neg hS']
      rfl
    have hsT : scan1 tryTranslateAt (tpartOf c) =
        some (c.translateX.render, c.translateY.render) := by
      rw [tpart_as_shape_nil]
      exact scan1_here _ _ _ (tryTranslateAt_hit _ _ _ hXa hXne hYa hYne)
    have hsR : scan1 tryRotateAt (tpartOf c) = none := by
      exact scan1_none_of_char tryRotateAt 'o' 1 tryRotateAt_char _ ho_t
    have hsS : scan1 tryScaleAt (tpartOf c) = none := by
      exact scan1_none_of_char tryScaleAt 'c' 1 tryScaleAt_char _ hc_t
    rw [hbuilt, parseTransform_some _ (tpart_ne_nil c), parseTransformCore, hsT, hsS, hsR]
    dsimp only
    rw [hpX, hpY, Tc.valsQ, hR, hS.1, hS.2]
    rfl
  · -- rotate and scale present, translate omitted
    push_neg at hT
    have hT' : ¬(c.translateX.val ≠ 0 ∨ c.translateY.val ≠ 0) := by push_neg; exact hT
    have hbuilt : buildTransform c = some (rpartOf c ++ ' ' :: spartOf c) := by
      rw [buildTransform_parts]
      dsimp only
      rw [if_neg hT', if_pos hR, if_pos hS]
      rfl
    have hsT : scan1 tryTranslateAt (rpartOf c ++ ' ' :: spartOf c) = none := by
      apply scan1_none_of_char tryTranslateAt 'n' 3 tryTranslateAt_char
      intro hm
      rcases List.mem_append.1 hm with hm | hm
      · exact hn_r hm
      · rcases List.mem_cons.1 hm with hm | hm
        · revert hm; decide
        · exact hn_s hm
    have hsR : scan1 tryRotateAt (rpartOf c ++ ' ' :: spartOf c) = some c.rotate.render := by
      rw [rpart_as_shape]
      exact scan1_here _ _ _ (tryRotateAt_hit _ _ hRa hRne)
    have hsS : scan1 tryScaleAt (rpartOf c ++ ' ' :: spartOf c) =
        some (c.scaleX.render, some c.scaleY.render) := by
      rw [show rpartOf c ++ ' ' :: spartOf c = (rpartOf c ++ [' ']) ++ spartOf c from by simp,
        scan1_skip_of_char tryScaleAt 'c' tryScaleAt_char (rpartOf c ++ [' ']) (spartOf c)
          (by
            intro hm
            rcases List.mem_append.1 hm with hm | hm
            · exact hc_r hm
            · revert hm
              decide)
          (by rw [spart_head_nil]; decide),
        spart_as_shape_nil]
      exact scan1_here _ _ _ (tryScaleAt_hit _ _ _ hSxa hSxne hSya hSyne)
    have hne2 : rpartOf c ++ ' ' :: spartOf c ≠ [] := by
      intro hcon
      exact rpart_ne_nil c (List.append_eq_nil.1 hcon).1
    rw [hbuilt, parseTransform_some _ hne2, parseTransformCore, hsT, hsS, hsR]
    dsimp only
    rw [hpSx, hpSy, hpR, Tc.valsQ, hT.1, hT.2]
    rfl
  · -- only rotate present
    push_neg at hT hS
    have hT' : ¬(c.translateX.val ≠ 0 ∨ c.translateY.val ≠ 0) := by push_neg; exact hT
    have hS' : ¬(c.scaleX.val ≠ 1 ∨ c.scaleY.val ≠ 1) := by push_neg; exact hS
    have hbuilt : buildTransform c = some (rpartOf c) := by
      rw [buildTransform_parts]
      dsimp only
      rw [if_neg hT', if_pos hR, if_neg hS']
      rfl
    have hsT : scan1 tryTranslateAt (rpartOf c) = none := by
      exact scan1_none_of_char tryTranslateAt 'n' 3 tryTranslateAt_char _ hn_r
    have hsR : scan1 tryRotateAt (rpartOf c) = some c.rotate.render := by
      rw [rpart_as_shape_nil]
      exact scan1_here _ _ _ (tryRotateAt_hit _ _ hRa hRne)
    have hsS : scan1 tryScaleAt (rpartOf c) = none := by
      exact scan1_none_of_char tryScaleAt 'c' 1 tryScaleAt_char _ hc_r
    rw [hbuilt, parseTransform_some _ (rpart_ne_nil c), parseTransformCore, hsT, hsS, hsR]
    dsimp only
    rw [hpR, Tc.valsQ, hT.1, hT.2, hS.1, hS.2]
    rfl
  · -- only scale present
    push_neg at hT hR
    have hT' : ¬(c.translateX.val ≠ 0 ∨ c.translateY.val ≠ 0) := by push_neg; exact hT
    have hR' : ¬(c.rotate.val ≠ 0) := by push_neg; exact hR
    have hbuilt : buildTransform c = some (spartOf c) := by
      rw [buildTransform_parts]
      dsimp only
      rw [if_neg hT', if_neg hR', if_pos hS]
      rfl
    have hsT : scan1 tryTranslateAt (spartOf c) = none := by
      exact scan1_none_of_char tryTranslateAt 'n' 3 tryTranslateAt_char _ hn_s
    have hsR : scan1 tryRotateAt (spartOf c) = none := by
      exact scan1_none_of_char tryRotateAt 'o' 1 tryRotateAt_char _ ho_s
    have hsS : scan1 tryScaleAt (spartOf c) =
        some (c.scaleX.render, some c.scaleY.render) := by
      rw [spart_as_shape_nil]
      exact scan1_here _ _ _ (tryScaleAt_hit _ _ _ hSxa hSxne hSya hSyne)
    rw [hbuilt, parseTransform_some _ (spart_ne_nil c), parseTransformCore, hsT, hsS, hsR]
    dsimp only
    rw [hpSx, hpSy, Tc.valsQ, hT.1, hT.2, hR]
    rfl
  · -- every group at its identity: nothing is emitted
    push_neg at hT hR hS
    have hT' : ¬(c.translateX.val ≠ 0 ∨ c.translateY.val ≠ 0) := by push_neg; exact hT
    have hR' : ¬(c.rotate.val ≠ 0) := by push_neg; exact hR
    have hS' : ¬(c.scaleX.val ≠ 1 ∨ c.scaleY.val ≠ 1) := by push_neg; exact hS
    have hbuilt : buildTransform c = none := by
      rw [buildTransform_parts]
      dsimp only
      rw [if_neg hT', if_neg hR', if_neg hS']
      rfl
    rw [hbuilt, parseTransform, Tc.valsQ, hT.1, hT.2, hR, hS.1, hS.2]
    rfl

/-- C9: an absent transform decomposes to the identity `(0,0,1,1,0)`;
for every component record whose channels are written in plain decimal
form, re-serializing with `buildTransform` (canonical order translate,
rotate, scale, each group omitted exactly at its identity) and
decomposing again with `parseTransform` recovers the record's values;
and `buildTransform` of the full identity emits no transform at all. -/
theorem transform_roundtrip :
    parseTransform none = idTcQ ∧
    (∀ c : Tc, c.WFb = true → parseTransform (buildTransform c) = c.valsQ) ∧
    (∀ c : Tc, c.valsQ = idTcQ → buildTransform c = none) := by
  refine ⟨rfl, fun c h => parse_build_eq_vals c h, fun c hid => ?_⟩
  have h1 : c.translateX.val = 0 := by
    have := congrArg TcQ.translateX hid
    simpa [Tc.valsQ, idTcQ] using this
  have h2 : c.translateY.val = 0 := by
    have := congrArg TcQ.translateY hid
    simpa [Tc.valsQ, idTcQ] using this
  have h3 : c.scaleX.val = 1 := by
    have := congrArg TcQ.scaleX hid
    simpa [Tc.valsQ, idTcQ] using this
  have h4 : c.scaleY.val = 1 := by
    have := congrArg TcQ.scaleY hid
    simpa [Tc.valsQ, idTcQ] using this
  have h5 : c.rotate.val = 0 := by
    have := congrArg TcQ.rotate hid
    simpa [Tc.valsQ, idTcQ] using this
  have hT' : ¬(c.translateX.val ≠ 0 ∨ c.translateY.val ≠ 0) := by
    push_neg
    exact ⟨h1, h2⟩
  have hR' : ¬(c.rotate.val ≠ 0) := by
    push_neg
    exact h5
  have hS' : ¬(c.scaleX.val ≠ 1 ∨ c.scaleY.val ≠ 1) := by
    push_neg
    exact ⟨h3, h4⟩
  rw [buildTransform_parts]
  dsimp only
  rw [if_neg hT', if_neg hR', if_neg hS']
  rfl

/-- Witness for C9 at the concrete record `(5, 0, 2, 1.5, -45)`: its
serialized form parses back to exactly its values. -/
theorem transform_roundtrip_witness :
    parseTransform (buildTransform tcEx) = tcEx.valsQ :=
  transform_roundtrip.2.1 tcEx (by decide)

end VectorFlow
